import Mathlib

/-!
Verification of the reverse-mode automatic-differentiation core of this
repository (`mlalgos/neural_network`): the `Value` computational-graph node
(`autograd.py`), the `Module`/`Neuron` abstraction (`base.py`, `module.py`,
`linear.py`) and the `Optimizer` family (`optimizer.py`).

Embedding conventions:
* Python `Value` objects are nodes of a heap: a node is identified by its
  index (`Nat`) in a `Store` (a `List Node`).  Object identity is index
  equality.  Every operation (`Value.__add__`, `Value.__mul__`, ...) appends
  a fresh node at the end of the store, so the children of a node always
  have strictly smaller indices than the node itself (`Wf`).
* Python floats are modelled by the rationals `ℚ` (every IEEE float is a
  rational, so every runtime store state is representable exactly; IEEE
  rounding of `+`, `*`, `-`, `/` is out of scope of all of the claims
  considered here).  The transcendental library routines have no exact
  rational model: `**` on floats (`math.pow` semantics) is abstracted as an
  explicit parameter `fp : ℚ → ℚ → ℚ` of everything that runs a backward
  closure — value statements that need it assume `fp` exact on integer
  exponents, where float `**` is the algebraic power — and the forward
  values of `log` and `tanh` nodes are whatever floats the library
  produced (the consistency predicate does not constrain them).
* A node's `_backward` closure captures the identities of its operands and
  the operation; this is represented by the `Op` tag stored in the node
  (the closure is a function of the tag, exactly as in the source where the
  closure shape is determined by the constructing operation).  All node
  kinds of the engine are modelled: `+`, `*`, `**` with an arbitrary float
  exponent (`__pow__`; division is `self * other ** -1`), `log`
  (`Value.log`), and the `tanh` / `relu` constructors of `functional.py`.
  The `tanh` closure uses the captured forward value `t`, not a re-read of
  `out.data`, so the tag records `t`.  Negation and subtraction are
  compositional on top of `+` and `*` in the source and are modelled the
  same way.
* `Value._prev` is a Python `set`; it is modelled as the deduplicated list
  of operand identities.  Python's set iteration order is unspecified; the
  model fixes one order, and none of the proved statements depend on it.
-/

namespace AutogradSpec

/-- Operation tag of a node: the operation that created the node together
with the identities of the operand objects captured by the `_backward`
closure (`Value.__add__`, `Value.__mul__`, `Value.__pow__` with its float
exponent, `Value.log`, and `functional.tanh` / `functional.relu`; a leaf
is a `Value(...)` literal with the default no-op backward).  The `tanh`
tag records the captured forward value `t` because the closure
`v.grad += (1 - t**2) * out.grad` uses that captured float, not a re-read
of `out.data`. -/
inductive Op where
  | leaf : Op
  | add : Nat → Nat → Op
  | mul : Nat → Nat → Op
  | pow : Nat → ℚ → Op
  | log : Nat → Op
  | tanh : Nat → ℚ → Op
  | relu : Nat → Op
deriving DecidableEq

/-- One `Value` object: its `_data`, the operation record (`_op` together
with the operands captured by `_backward`), and its `_grad`. -/
structure Node where
  data : ℚ
  op : Op
  grad : ℚ
deriving DecidableEq

instance : Inhabited Node := ⟨⟨0, Op.leaf, 0⟩⟩

/-- The heap of `Value` objects, indexed by `Nat`. -/
abbrev Store := List Node

def nodeAt (s : Store) (i : Nat) : Node := s.getD i default

def dataOf (s : Store) (i : Nat) : ℚ := (nodeAt s i).data

def gradOf (s : Store) (i : Nat) : ℚ := (nodeAt s i).grad

def opOf (s : Store) (i : Nat) : Op := (nodeAt s i).op

/-- Operand occurrences of an operation, in closure order, with
multiplicity (for `x * x` the operand `x` occurs twice, and the closure
adds into its gradient twice). -/
def slots : Op → List Nat
  | Op.leaf => []
  | Op.add a b => [a, b]
  | Op.mul a b => [a, b]
  | Op.pow a _ => [a]
  | Op.log a => [a]
  | Op.tanh a _ => [a]
  | Op.relu a => [a]

/-- The `_prev` set of a node: the set of children, modelled as the
deduplicated operand list (`set(children)` in `Value.__init__`). -/
def prevOf (s : Store) (v : Nat) : List Nat := (slots (opOf s v)).dedup

/-- Well-formedness of a store: every child of a node has a strictly
smaller index.  This is an invariant of graph construction in the source:
an operation only ever creates a fresh node whose children already exist
(`operations only ever create new nodes, never new edges into existing
nodes`), so an acyclic expression graph always has this shape. -/
def Wf (s : Store) : Prop := ∀ i < s.length, ∀ c ∈ slots (opOf s i), c < i

/-- Data-consistency of a single node: its stored `data` is the value of
its operation applied to its children's stored `data`, wherever that value
is exactly representable — `+`, `*`, `**` with a non-negative integer
exponent, `relu` (`max(v.data, 0)`), and `tanh` (whose stored data is the
captured `t` by construction).  For a `log` node, or a `**` node with a
non-integer or negative exponent, the stored forward value is a library
approximation with no exact rational characterisation, so no constraint is
imposed (such nodes are excluded from the differentiability fragment
`PolyFrag` below, the only place consistency is consumed). -/
def consB (s : Store) (i : Nat) : Bool :=
  match opOf s i with
  | Op.leaf => true
  | Op.add a b => dataOf s i = dataOf s a + dataOf s b
  | Op.mul a b => dataOf s i = dataOf s a * dataOf s b
  | Op.pow a e =>
      if e.den = 1 ∧ 0 ≤ e.num then
        dataOf s i = dataOf s a ^ e.num.toNat
      else true
  | Op.log _ => true
  | Op.tanh _ t => dataOf s i = t
  | Op.relu a => dataOf s i = max (dataOf s a) 0

/-- Data-consistency of the whole store (the state right after a forward
pass builds the graph). -/
def Consistent (s : Store) : Prop := ∀ i < s.length, consB s i = true

/-- Membership of one node in the polynomial fragment: its operation is
`+`, `*`, a leaf, or `**` with a non-negative integer exponent.  On this
fragment the forward values are exact rationals and the cut function of
every node is everywhere differentiable; outside it, exact-derivative
statements fail (`relu` has a kink, `log`/`tanh` forward data are library
approximations, `log` and negative powers have domain boundaries). -/
def polyB (s : Store) (i : Nat) : Bool :=
  match opOf s i with
  | Op.leaf => true
  | Op.add _ _ => true
  | Op.mul _ _ => true
  | Op.pow _ e => e.den = 1 ∧ 0 ≤ e.num
  | Op.log _ => false
  | Op.tanh _ _ => false
  | Op.relu _ => false

/-- The whole store lies in the polynomial fragment. -/
def PolyFrag (s : Store) : Prop := ∀ i < s.length, polyB s i = true

/-! Graph construction, mirroring the `Value` methods.  Each returns the
id of the created node together with the extended store. -/

/-- `Value(d)`: a fresh leaf node with `_grad = 0.0`. -/
def mkValue (d : ℚ) (s : Store) : Nat × Store :=
  (s.length, s ++ [⟨d, Op.leaf, 0⟩])

/-- `Value.__add__` on two existing nodes: `out = Value(self.data +
other.data, (self, other), "+")` with the additive backward closure. -/
def vadd (a b : Nat) (s : Store) : Nat × Store :=
  (s.length, s ++ [⟨dataOf s a + dataOf s b, Op.add a b, 0⟩])

/-- `Value.__mul__` on two existing nodes. -/
def vmul (a b : Nat) (s : Store) : Nat × Store :=
  (s.length, s ++ [⟨dataOf s a * dataOf s b, Op.mul a b, 0⟩])

/-- `Value.__pow__` with a float exponent:
`out = Value(self.data ** other, (self,), f"**{other}")`.  The float power
routine is the parameter `fp`. -/
def vpow (fp : ℚ → ℚ → ℚ) (a : Nat) (e : ℚ) (s : Store) : Nat × Store :=
  (s.length, s ++ [⟨fp (dataOf s a) e, Op.pow a e, 0⟩])

/-- `Value.__truediv__`: `self * other ** -1` — first the reciprocal power
node on `other`, then the product node. -/
def vtruediv (fp : ℚ → ℚ → ℚ) (a b : Nat) (s : Store) : Nat × Store :=
  let r := vpow fp b (-1) s
  vmul a r.1 r.2

/-- `Value.log`: `out = Value(math.log(self.data), (self,), "log")`; the
library logarithm is the parameter `flog`. -/
def vlog (flog : ℚ → ℚ) (a : Nat) (s : Store) : Nat × Store :=
  (s.length, s ++ [⟨flog (dataOf s a), Op.log a, 0⟩])

/-- `functional.tanh` on a single node:
`t = (math.exp(2*v.data) - 1) / (math.exp(2*v.data) + 1)`, then
`out = Value(t, (v,), "tanh")`; the library exponential is the parameter
`fexp`.  The tag records the captured `t`. -/
def vtanh (fexp : ℚ → ℚ) (a : Nat) (s : Store) : Nat × Store :=
  let t := (fexp (2 * dataOf s a) - 1) / (fexp (2 * dataOf s a) + 1)
  (s.length, s ++ [⟨t, Op.tanh a t, 0⟩])

/-- `functional.relu` on a single node: `out = Value(max(v.data, 0), (v,),
"relu")` — exact in rational arithmetic. -/
def vrelu (a : Nat) (s : Store) : Nat × Store :=
  (s.length, s ++ [⟨max (dataOf s a) 0, Op.relu a, 0⟩])

/-- A concrete power routine used to instantiate `fp` in witnesses: exact
on integer exponents (`b ^ e.num` when `e.den = 1`), and `0` elsewhere —
the non-integer values are irrelevant to every statement instantiated with
it. -/
def qpowI (b : ℚ) (e : ℚ) : ℚ := if e.den = 1 then b ^ e.num else 0

/-- `Value.__add__` with a numeric literal: the literal is first lifted to
a constant leaf (`other = other if isinstance(other, Value) else
Value(other)`). -/
def vaddConst (a : Nat) (c : ℚ) (s : Store) : Nat × Store :=
  let oc := mkValue c s
  vadd a oc.1 oc.2

/-- `Value.__mul__` with a numeric literal. -/
def vmulConst (a : Nat) (c : ℚ) (s : Store) : Nat × Store :=
  let oc := mkValue c s
  vmul a oc.1 oc.2

/-- `Value.__neg__`: `self * -1`. -/
def vneg (a : Nat) (s : Store) : Nat × Store := vmulConst a (-1) s

/-- `Value.__sub__`: `self + (-other)`. -/
def vsub (a b : Nat) (s : Store) : Nat × Store :=
  let nb := vneg b s
  vadd a nb.1 nb.2

/-! The backward pass (`Value.backward`). -/

/-- The recursive depth-first post-order traversal `_build_topo` of
`Value.backward._topological_sort`: accumulator is the pair
`(visited, topo)`; a node is marked visited before its children are
explored and appended to `topo` after them.  The structural recursion of
the source is expressed with a fuel parameter; on a well-formed store a
fuel of `v + 1` is enough to explore everything below `v` (children have
strictly smaller ids), so `topoSort` below runs it with fuel `root + 1`
and the fuel never runs out on the graphs the source can build. -/
def buildTopoF : Nat → Store → Nat → List Nat × List Nat →
    List Nat × List Nat
  | 0, _, _, acc => acc
  | fuel + 1, s, v, acc =>
    if v ∈ acc.1 then acc
    else
      let acc1 := (v :: acc.1, acc.2)
      let acc2 := (prevOf s v).foldl (fun a c => buildTopoF fuel s c a) acc1
      (acc2.1, acc2.2 ++ [v])

/-- `_topological_sort(root)`: the post-order list of nodes reachable from
the root. -/
def topoSort (s : Store) (root : Nat) : List Nat :=
  (buildTopoF (root + 1) s root ([], [])).2

/-- Overwrite the `grad` field of node `i` (the `@grad.setter`). -/
def updGrad (s : Store) (i : Nat) (q : ℚ) : Store :=
  s.set i ⟨(nodeAt s i).data, (nodeAt s i).op, q⟩

/-- Overwrite the `data` field of node `i` (the `@data.setter`). -/
def updData (s : Store) (i : Nat) (q : ℚ) : Store :=
  s.set i ⟨q, (nodeAt s i).op, (nodeAt s i).grad⟩

/-- Execute node `m`'s `_backward` closure: each operand's grad receives
its contribution in the order the closure's statements run, re-reading the
state between the two statements exactly as the Python closure does
(`self.grad += ...` then `other.grad += ...`).  The closure bodies are the
source's, with the current field values read from the store:
`out.grad` for `+`; `other.data * out.grad` / `self.data * out.grad` for
`*`; `other * self.data ** (other - 1) * out.grad` for `**` (the float
power is `fp`); `out.grad / self.data` for `log`; `(1 - t**2) * out.grad`
for `tanh` (with the captured `t` recorded in the tag); and
`(v.data > 0) * out.grad` for `relu` (a Python bool multiplies as `1.0` /
`0.0`). -/
def applyRule (fp : ℚ → ℚ → ℚ) (st : Store) (m : Nat) : Store :=
  match opOf st m with
  | Op.leaf => st
  | Op.add a b =>
      let st1 := updGrad st a (gradOf st a + gradOf st m)
      updGrad st1 b (gradOf st1 b + gradOf st1 m)
  | Op.mul a b =>
      let st1 := updGrad st a (gradOf st a + dataOf st b * gradOf st m)
      updGrad st1 b (gradOf st1 b + dataOf st1 a * gradOf st1 m)
  | Op.pow a e =>
      updGrad st a (gradOf st a + e * fp (dataOf st a) (e - 1) * gradOf st m)
  | Op.log a =>
      updGrad st a (gradOf st a + gradOf st m / dataOf st a)
  | Op.tanh a t =>
      updGrad st a (gradOf st a + (1 - t ^ 2) * gradOf st m)
  | Op.relu a =>
      updGrad st a (gradOf st a +
        (if 0 < dataOf st a then (1 : ℚ) else 0) * gradOf st m)

/-- The execution order of the backward pass: `reversed(topo)`. -/
def execOrder (s : Store) (root : Nat) : List Nat :=
  (topoSort s root).reverse

/-- `Value.backward()`: topologically sort the graph below the root, set
`self.grad = 1.0`, then run every node's `_backward` in reverse
topological order. -/
def backward (fp : ℚ → ℚ → ℚ) (s : Store) (root : Nat) : Store :=
  (execOrder s root).foldl (applyRule fp) (updGrad s root 1)

/-! The `Module` abstraction (`module.py` / `base.py`).  `parameters()`
walks `self.__dict__.values()` — the attributes of the object in
declaration (insertion) order — yielding `Value` attributes, `Value`
items and recursively the parameters of `Module` items of `list`
attributes, and recursively the parameters of `Module` attributes.  A
Python attribute value is modelled by `PyVal`; a module is a `PyVal.module`
holding its attribute list in declaration order. -/

inductive PyVal where
  | value : Nat → PyVal
  | list : List PyVal → PyVal
  | module : List PyVal → PyVal
  | other : PyVal

mutual

/-- Parameters contributed by one attribute of a module's `__dict__`
(the body of the outer `for attr in self.__dict__.values()` loop). -/
def attrParams : PyVal → List Nat
  | PyVal.value n => [n]
  | PyVal.list items => (items.attach.map (fun x => itemParams x.1)).flatten
  | PyVal.module attrs => moduleParams attrs
  | PyVal.other => []
termination_by v => sizeOf v
decreasing_by
  · have h := List.sizeOf_lt_of_mem x.2
    simp only [PyVal.list.sizeOf_spec]
    omega
  · simp only [PyVal.module.sizeOf_spec]
    omega

/-- Parameters contributed by one item of a `list` attribute (the body of
the inner `for item in attr` loop: a `Value` is yielded, a `Module` is
recursed into, anything else — including a nested list — is skipped). -/
def itemParams : PyVal → List Nat
  | PyVal.value n => [n]
  | PyVal.module attrs => moduleParams attrs
  | PyVal.list _ => []
  | PyVal.other => []
termination_by v => sizeOf v
decreasing_by
  simp only [PyVal.module.sizeOf_spec]
  omega

/-- `Module.parameters()` of a module with the given attribute list. -/
def moduleParams (attrs : List PyVal) : List Nat :=
  (attrs.attach.map (fun x => attrParams x.1)).flatten
termination_by sizeOf attrs
decreasing_by
  have h := List.sizeOf_lt_of_mem x.2
  omega

end

/-- The ownership relation the specification's `parameters()` contract
speaks about: node `n` is owned directly or transitively by a module with
attribute list `attrs` — it is a `Value` attribute, a `Value` item of a
`list` attribute, or owned by a `Module` attribute or by a `Module` item
of a `list` attribute. -/
inductive Owns : List PyVal → Nat → Prop where
  | attrValue {attrs : List PyVal} {n : Nat} :
      PyVal.value n ∈ attrs → Owns attrs n
  | listValue {attrs : List PyVal} {items : List PyVal} {n : Nat} :
      PyVal.list items ∈ attrs → PyVal.value n ∈ items → Owns attrs n
  | listModule {attrs : List PyVal} {items : List PyVal}
      {sub : List PyVal} {n : Nat} :
      PyVal.list items ∈ attrs → PyVal.module sub ∈ items →
      Owns sub n → Owns attrs n
  | attrModule {attrs : List PyVal} {sub : List PyVal} {n : Nat} :
      PyVal.module sub ∈ attrs → Owns sub n → Owns attrs n

/-! `Neuron` and `Linear` (`base.py`, `linear.py`).  A neuron owns one
weight node per input feature plus a bias node; its `__dict__` declares
`_w` (a list of `Value`s) and then `_b` (a `Value`).  The random
initialisation draws are irrelevant to the claims; a neuron is modelled by
the identities of its parameter nodes. -/

structure Neuron where
  w : List Nat
  b : Nat
deriving DecidableEq

/-- The attribute list of a `Neuron` as seen by `Module.parameters()`:
`self._w = [...]` then `self._b = ...`, in declaration order. -/
def Neuron.toAttrs (nr : Neuron) : List PyVal :=
  [PyVal.list (nr.w.map PyVal.value), PyVal.value nr.b]

/-- The attribute list of a `Linear` layer: a single attribute
`self._neurons`, a list of `Neuron` sub-modules. -/
def Linear.toAttrs (ns : List Neuron) : List PyVal :=
  [PyVal.list (ns.map (fun nr => PyVal.module nr.toAttrs))]

/-- `Neuron.forward(x)`: raise a `ValueError` when the input length does
not match the stored weight count — before anything is built — otherwise
return `sum((wi * xi for wi, xi in zip(self._w, x)), self._b)`, i.e. the
left fold that starts from the bias and adds one product term per weight.
The returned pair is the `Except` outcome together with the store as the
caller observes it afterwards (unchanged when the error is raised). -/
def neuronForward (nr : Neuron) (x : List Nat) (s : Store) :
    Except String Nat × Store :=
  if x.length ≠ nr.w.length then
    (Except.error ("Expected input of length " ++ toString nr.w.length ++
      ", but got " ++ toString x.length ++ "."), s)
  else
    let r := (nr.w.zip x).foldl
      (fun acc wx => vadd acc.1 (vmul wx.1 wx.2 acc.2).1 (vmul wx.1 wx.2 acc.2).2)
      (nr.b, s)
    (Except.ok r.1, r.2)

/-! The `Optimizer` family (`optimizer.py`). -/

/-- The state owned by the base `Optimizer`: the fixed list snapshot of
the parameters (`list(parameters)`) and the learning rate. -/
structure OptState where
  params : List Nat
  lr : ℚ
deriving DecidableEq

/-- `Optimizer.__init__`: reject a negative learning rate with
`ValueError(f"Invalid learning rate: {lr}")`, otherwise snapshot the
parameters.  (The rendering of the rate inside the message uses the
canonical rational notation rather than Python float formatting.) -/
def optimizerInit (parameters : List Nat) (lr : ℚ) : Except String OptState :=
  if lr < 0 then Except.error ("Invalid learning rate: " ++ toString lr)
  else Except.ok ⟨parameters, lr⟩

/-- Per-parameter auxiliary state of `Adam`: first/second moment maps
keyed by parameter identity, and the step counter. -/
structure AdamState where
  base : OptState
  m : Nat → ℚ
  v : Nat → ℚ
  t : Nat

/-- `Adam.__init__`: runs the base constructor (hence the same learning
rate validation), then creates the zero-initialised moment maps and step
counter. -/
def adamInit (parameters : List Nat) (lr : ℚ) : Except String AdamState :=
  match optimizerInit parameters lr with
  | Except.error e => Except.error e
  | Except.ok o => Except.ok ⟨o, fun _ => 0, fun _ => 0, 0⟩

/-- `Optimizer.zero_grad()`: `p.grad = 0.0` for every owned parameter. -/
def zeroGrad (o : OptState) (s : Store) : Store :=
  o.params.foldl (fun st p => updGrad st p 0) s

/-- `SGD.step()`: `p.data -= self._lr * p.grad` for every owned
parameter. -/
def sgdStep (o : OptState) (s : Store) : Store :=
  o.params.foldl (fun st p => updData st p (dataOf st p - o.lr * gradOf st p)) s

/-! Semantic notions used to state gradient correctness. -/

/-- Reachability along input edges: the nodes `backward()` is specified to
update, namely the root and everything below it. -/
inductive Reaches (s : Store) (root : Nat) : Nat → Prop where
  | refl : Reaches s root root
  | step {m c : Nat} : Reaches s root m → c ∈ slots (opOf s m) →
      Reaches s root c

/-- The coefficient with which node `m`'s own gradient flows into the
gradient of node `v` when `m`'s `_backward` closure runs: the sum over the
operand occurrences of `m` that are `v` of the closure's local factor.
For addition the factor is `1` per occurrence, for multiplication it is
the other operand's `data`, for the power rule `e * data ** (e - 1)` (the
float power being `fp`), for `log` it is `1 / data` (the closure divides
by `self.data`), for `tanh` it is `1 - t ** 2` with the captured `t`, and
for `relu` it is the `data > 0` indicator. -/
def localCoeff (fp : ℚ → ℚ → ℚ) (s : Store) (m v : Nat) : ℚ :=
  match opOf s m with
  | Op.leaf => 0
  | Op.add a b => (if a = v then 1 else 0) + (if b = v then 1 else 0)
  | Op.mul a b =>
      (if a = v then dataOf s b else 0) + (if b = v then dataOf s a else 0)
  | Op.pow a e => if a = v then e * fp (dataOf s a) (e - 1) else 0
  | Op.log a => if a = v then 1 / dataOf s a else 0
  | Op.tanh a t => if a = v then 1 - t ^ 2 else 0
  | Op.relu a =>
      if a = v then (if 0 < dataOf s a then (1 : ℚ) else 0) else 0

/-- Closed-form solution of the reverse accumulation: the gradient node
`v` holds after a backward pass whose execution covered exactly the nodes
of the list `L`, starting from initial gradients `g0` (the root's stale
gradient is discarded by the `self.grad = 1.0` assignment; every other
node accumulates on top of `g0`).  It satisfies the adjoint recurrence:
initial value plus the contributions of all executed consumers.  The
guards `v < m` and `m < s.length` are redundant on a well-formed store and
only serve termination. -/
def accGrad (fp : ℚ → ℚ → ℚ) (s : Store) (root : Nat) (L : List Nat)
    (g0 : Nat → ℚ) (v : Nat) : ℚ :=
  (if v = root then 1 else g0 v) +
    ∑ m ∈ ((Finset.range s.length).filter
        (fun m => m ∈ L ∧ v ∈ slots (opOf s m) ∧ v < m)).attach,
      localCoeff fp s m.1 v * accGrad fp s root L g0 m.1
termination_by s.length - v
decreasing_by
  obtain ⟨m, hm⟩ := m
  simp only [Finset.mem_filter, Finset.mem_range] at hm
  show s.length - m < s.length - v
  obtain ⟨h1, _, _, h4⟩ := hm
  omega

/-- Forward-mode tangent: the derivative value the engine's local rules
propagate for node `v` with respect to an infinitesimal change of node
`n`'s value, computed structurally down the graph by composing exactly the
closures' per-edge factors (so on the polynomial fragment it is the
analytic derivative, and elsewhere it is the engine's convention — e.g.
the `data > 0` indicator at a `relu` kink).  The guards `a < v` are
redundant on a well-formed store and only serve termination. -/
def tangent (fp : ℚ → ℚ → ℚ) (s : Store) (n : Nat) (v : Nat) : ℚ :=
  if v = n then 1
  else
    match opOf s v with
    | Op.leaf => 0
    | Op.add a b =>
        (if _ : a < v then tangent fp s n a else 0) +
          (if _ : b < v then tangent fp s n b else 0)
    | Op.mul a b =>
        (if _ : a < v then tangent fp s n a else 0) * dataOf s b +
          dataOf s a * (if _ : b < v then tangent fp s n b else 0)
    | Op.pow a e =>
        e * fp (dataOf s a) (e - 1) *
          (if _ : a < v then tangent fp s n a else 0)
    | Op.log a =>
        (1 / dataOf s a) * (if _ : a < v then tangent fp s n a else 0)
    | Op.tanh a t =>
        (1 - t ^ 2) * (if _ : a < v then tangent fp s n a else 0)
    | Op.relu a =>
        (if 0 < dataOf s a then (1 : ℚ) else 0) *
          (if _ : a < v then tangent fp s n a else 0)
termination_by v

/-- The value of node `v` as a real function of the value `t` substituted
for node `n` (the graph is "cut" at `n`): the forward computation re-run
with `n`'s data replaced by the variable.  The exact partial derivative
`∂root/∂n` of the specification is the analytic derivative of
`evalCutR s n root` at `n`'s current data.  The guards `a < v` are
redundant on a well-formed store and only serve termination. -/
noncomputable def evalCutR (s : Store) (n : Nat) (v : Nat) (t : ℝ) : ℝ :=
  if v = n then t
  else
    match opOf s v with
    | Op.leaf => ((dataOf s v : ℚ) : ℝ)
    | Op.add a b =>
        (if _ : a < v then evalCutR s n a t else 0) +
          (if _ : b < v then evalCutR s n b t else 0)
    | Op.mul a b =>
        (if _ : a < v then evalCutR s n a t else 0) *
          (if _ : b < v then evalCutR s n b t else 0)
    | Op.pow a e => (if _ : a < v then evalCutR s n a t else 0) ^ (e : ℝ)
    | Op.log a => Real.log (if _ : a < v then evalCutR s n a t else 0)
    | Op.tanh a _ => Real.tanh (if _ : a < v then evalCutR s n a t else 0)
    | Op.relu a => max (if _ : a < v then evalCutR s n a t else 0) 0
termination_by v

/-! Concrete instances used by the examples and witnesses. -/

/-- The expression `y = x * x + 3` built on a fresh leaf `x = Value(d)`:
node 0 is `x`, node 1 is `x * x`, node 2 is the lifted constant `3`,
node 3 is `y`. -/
def c2Graph (d : ℚ) : Nat × Store :=
  let xs := mkValue d []
  let ts := vmul xs.1 xs.1 xs.2
  vaddConst ts.1 3 ts.2

/-- A store of five leaf parameters: weights `0.5` and `-0.5`, bias `0`,
and two inputs of value `2`. -/
def neuronStore : Store :=
  [⟨1/2, Op.leaf, 0⟩, ⟨-1/2, Op.leaf, 0⟩, ⟨0, Op.leaf, 0⟩,
    ⟨2, Op.leaf, 0⟩, ⟨2, Op.leaf, 0⟩]

/-- A neuron with weights at nodes 0 and 1 and bias at node 2. -/
def exNeuron : Neuron := ⟨[0, 1], 2⟩

/-- A one-parameter store: `data = 5.0`, `grad = 2.0`. -/
def sgdStore : Store := [⟨5, Op.leaf, 2⟩]

/-- A stale-gradient graph: leaf `x` (node 0, `data 3`, stale `grad 7`)
and root `x * x` (node 1, stale `grad 5`). -/
def staleStore : Store := [⟨3, Op.leaf, 7⟩, ⟨9, Op.mul 0 0, 5⟩]

/-- The graph of `y = x * x + 3` at `x = 2` as a concrete store: leaf
`x = 2`, product node `4`, lifted constant `3`, sum node `7`; all
gradients zero. -/
def exGraph : Store :=
  [⟨2, Op.leaf, 0⟩, ⟨4, Op.mul 0 0, 0⟩, ⟨3, Op.leaf, 0⟩, ⟨7, Op.add 1 2, 0⟩]

/-- The graph of `relu(x)` at `x = 0.0` with all gradients clean: leaf `x`
(node 0) at the kink of the rectifier, root `relu(x)` (node 1). -/
def reluStore : Store := [⟨0, Op.leaf, 0⟩, ⟨0, Op.relu 0, 0⟩]

/-- The graph of `relu(x)` at `x = 0.0` with stale gradients: `7` on the
leaf `x` (node 0) and `5` on the root (node 1). -/
def staleReluStore : Store := [⟨0, Op.leaf, 7⟩, ⟨0, Op.relu 0, 5⟩]

instance (s : Store) : Decidable (Wf s) :=
  decidable_of_iff (∀ i < s.length, ∀ c ∈ slots (opOf s i), c < i) Iff.rfl

instance (s : Store) : Decidable (Consistent s) :=
  decidable_of_iff (∀ i < s.length, consB s i = true) Iff.rfl

instance (s : Store) : Decidable (PolyFrag s) :=
  decidable_of_iff (∀ i < s.length, polyB s i = true) Iff.rfl

/-- Every node of the list `L` has all of its operand occurrences either
strictly earlier in `L` or satisfying the escape predicate `G` (used with
`G` = "currently on the DFS stack" during the traversal proofs, and with
`G` = `False` for the final post-order list: children strictly precede
their consumers). -/
def ChildClosedP (s : Store) (G : Nat → Prop) (L : List Nat) : Prop :=
  ∀ l1 m l2, L = l1 ++ m :: l2 → ∀ c ∈ slots (opOf s m), c ∈ l1 ∨ G c

/-! Basic lemmas about the mutable-store primitives. -/

@[simp] theorem length_updGrad (s : Store) (i : Nat) (q : ℚ) :
    (updGrad s i q).length = s.length := List.length_set s i _

@[simp] theorem length_updData (s : Store) (i : Nat) (q : ℚ) :
    (updData s i q).length = s.length := List.length_set s i _

theorem updGrad_oor (s : Store) (i : Nat) (q : ℚ) (h : ¬ i < s.length) :
    updGrad s i q = s := List.set_eq_of_length_le (by omega)

theorem nodeAt_updGrad_ne (s : Store) (i j : Nat) (q : ℚ) (h : i ≠ j) :
    nodeAt (updGrad s i q) j = nodeAt s j := by
  simp [nodeAt, updGrad, List.getD, List.getElem?_set_ne h]

theorem nodeAt_updGrad_self (s : Store) (i : Nat) (q : ℚ) (h : i < s.length) :
    nodeAt (updGrad s i q) i = ⟨(nodeAt s i).data, (nodeAt s i).op, q⟩ := by
  simp [nodeAt, updGrad, List.getD, List.getElem?_set_self, h]

@[simp] theorem dataOf_updGrad (s : Store) (i : Nat) (q : ℚ) (j : Nat) :
    dataOf (updGrad s i q) j = dataOf s j := by
  by_cases hij : i = j
  · subst hij
    by_cases hv : i < s.length
    · simp [dataOf, nodeAt_updGrad_self s i q hv]
    · rw [updGrad_oor s i q hv]
  · simp [dataOf, nodeAt_updGrad_ne s i j q hij]

@[simp] theorem opOf_updGrad (s : Store) (i : Nat) (q : ℚ) (j : Nat) :
    opOf (updGrad s i q) j = opOf s j := by
  by_cases hij : i = j
  · subst hij
    by_cases hv : i < s.length
    · simp [opOf, nodeAt_updGrad_self s i q hv]
    · rw [updGrad_oor s i q hv]
  · simp [opOf, nodeAt_updGrad_ne s i j q hij]

theorem gradOf_updGrad_self (s : Store) (i : Nat) (q : ℚ) (h : i < s.length) :
    gradOf (updGrad s i q) i = q := by
  simp [gradOf, nodeAt_updGrad_self s i q h]

theorem gradOf_updGrad_ne (s : Store) (i j : Nat) (q : ℚ) (h : i ≠ j) :
    gradOf (updGrad s i q) j = gradOf s j := by
  simp [gradOf, nodeAt_updGrad_ne s i j q h]

theorem updData_oor (s : Store) (i : Nat) (q : ℚ) (h : ¬ i < s.length) :
    updData s i q = s := List.set_eq_of_length_le (by omega)

theorem nodeAt_updData_ne (s : Store) (i j : Nat) (q : ℚ) (h : i ≠ j) :
    nodeAt (updData s i q) j = nodeAt s j := by
  simp [nodeAt, updData, List.getD, List.getElem?_set_ne h]

theorem nodeAt_updData_self (s : Store) (i : Nat) (q : ℚ) (h : i < s.length) :
    nodeAt (updData s i q) i = ⟨q, (nodeAt s i).op, (nodeAt s i).grad⟩ := by
  simp [nodeAt, updData, List.getD, List.getElem?_set_self, h]

@[simp] theorem gradOf_updData (s : Store) (i : Nat) (q : ℚ) (j : Nat) :
    gradOf (updData s i q) j = gradOf s j := by
  by_cases hij : i = j
  · subst hij
    by_cases hv : i < s.length
    · simp [gradOf, nodeAt_updData_self s i q hv]
    · rw [updData_oor s i q hv]
  · simp [gradOf, nodeAt_updData_ne s i j q hij]

@[simp] theorem opOf_updData (s : Store) (i : Nat) (q : ℚ) (j : Nat) :
    opOf (updData s i q) j = opOf s j := by
  by_cases hij : i = j
  · subst hij
    by_cases hv : i < s.length
    · simp [opOf, nodeAt_updData_self s i q hv]
    · rw [updData_oor s i q hv]
  · simp [opOf, nodeAt_updData_ne s i j q hij]

theorem dataOf_updData_self (s : Store) (i : Nat) (q : ℚ) (h : i < s.length) :
    dataOf (updData s i q) i = q := by
  simp [dataOf, nodeAt_updData_self s i q h]

theorem dataOf_updData_ne (s : Store) (i j : Nat) (q : ℚ) (h : i ≠ j) :
    dataOf (updData s i q) j = dataOf s j := by
  simp [dataOf, nodeAt_updData_ne s i j q h]

/-! Frame lemmas: a `_backward` closure only writes `grad` fields. -/

@[simp] theorem length_applyRule (fp : ℚ → ℚ → ℚ) (st : Store) (m : Nat) :
    (applyRule fp st m).length = st.length := by
  unfold applyRule
  cases opOf st m <;> simp

@[simp] theorem dataOf_applyRule (fp : ℚ → ℚ → ℚ) (st : Store) (m : Nat)
    (j : Nat) : dataOf (applyRule fp st m) j = dataOf st j := by
  unfold applyRule
  cases opOf st m <;> simp

@[simp] theorem opOf_applyRule (fp : ℚ → ℚ → ℚ) (st : Store) (m : Nat)
    (j : Nat) : opOf (applyRule fp st m) j = opOf st j := by
  unfold applyRule
  cases opOf st m <;> simp

theorem length_backward_foldl (fp : ℚ → ℚ → ℚ) (l : List Nat) (st : Store) :
    (l.foldl (applyRule fp) st).length = st.length := by
  induction l generalizing st with
  | nil => rfl
  | cons m l ih => simp [List.foldl_cons, ih]

theorem dataOf_backward_foldl (fp : ℚ → ℚ → ℚ) (l : List Nat) (st : Store)
    (j : Nat) : dataOf (l.foldl (applyRule fp) st) j = dataOf st j := by
  induction l generalizing st with
  | nil => rfl
  | cons m l ih => simp [List.foldl_cons, ih]

theorem opOf_backward_foldl (fp : ℚ → ℚ → ℚ) (l : List Nat) (st : Store)
    (j : Nat) : opOf (l.foldl (applyRule fp) st) j = opOf st j := by
  induction l generalizing st with
  | nil => rfl
  | cons m l ih => simp [List.foldl_cons, ih]

theorem gradOf_oor (s : Store) (i : Nat) (h : ¬ i < s.length) :
    gradOf s i = 0 := by
  unfold gradOf nodeAt
  rw [List.getD_eq_default s default (Nat.le_of_not_lt h)]
  rfl

theorem set_nodeAt_self (s : Store) (i : Nat) (h : i < s.length) :
    s.set i (nodeAt s i) = s := by
  apply List.ext_getElem?
  intro j
  rw [List.getElem?_set]
  split
  · next he =>
    subst he
    simp [h, nodeAt, List.getD_eq_getElem s default h]
  · rfl

theorem updGrad_eq_self (s : Store) (i : Nat) (h : gradOf s i = 0) :
    updGrad s i 0 = s := by
  by_cases hv : i < s.length
  · have hn : (⟨(nodeAt s i).data, (nodeAt s i).op, (0 : ℚ)⟩ : Node) = nodeAt s i := by
      cases hnode : nodeAt s i with
      | mk d o g =>
        have : g = 0 := by
          have := h
          rw [gradOf, hnode] at this
          exact this
        simp [this]
    rw [updGrad, hn, set_nodeAt_self s i hv]
  · exact updGrad_oor s i 0 hv

/-- C9: `backward()` mutates only `grad` fields — for every node kind of
the engine (`+`, `*`, `**` with any float exponent and any power routine,
`log`, `tanh`, `relu`, leaves), every node's `data`, its operation record
(hence its `_prev` input set and the shape of its attached `_backward`
closure) and the store layout are unchanged on any graph and any root. -/
theorem backward_frame (fp : ℚ → ℚ → ℚ) (s : Store) (root : Nat) :
    (backward fp s root).length = s.length ∧
      (∀ j, dataOf (backward fp s root) j = dataOf s j) ∧
      (∀ j, opOf (backward fp s root) j = opOf s j) ∧
      (∀ j, prevOf (backward fp s root) j = prevOf s j) := by
  unfold backward
  refine ⟨?_, fun j => ?_, fun j => ?_, fun j => ?_⟩
  · rw [length_backward_foldl]
    simp
  · rw [dataOf_backward_foldl]
    simp
  · rw [opOf_backward_foldl]
    simp
  · unfold prevOf
    rw [opOf_backward_foldl]
    simp

/-- C6: both optimizer constructors (`Optimizer.__init__`, reached also by
`SGD` and by `Adam.__init__` through `super().__init__`) reject a negative
learning rate with a `ValueError` — so no `step()` can ever be called on
such an optimizer, no optimizer state being constructed — and accept any
non-negative learning rate. -/
theorem optimizer_negative_lr (ps : List Nat) (lr : ℚ) :
    (lr < 0 →
        optimizerInit ps lr =
          Except.error ("Invalid learning rate: " ++ toString lr) ∧
        adamInit ps lr =
          Except.error ("Invalid learning rate: " ++ toString lr)) ∧
      (0 ≤ lr →
        optimizerInit ps lr = Except.ok ⟨ps, lr⟩ ∧
        ∃ st : AdamState, adamInit ps lr = Except.ok st) := by
  constructor
  · intro h
    constructor
    · simp [optimizerInit, h]
    · simp [adamInit, optimizerInit, h]
  · intro h
    have h2 : ¬ lr < 0 := not_lt.mpr h
    constructor
    · simp [optimizerInit, h2]
    · refine ⟨⟨⟨ps, lr⟩, fun _ => 0, fun _ => 0, 0⟩, ?_⟩
      simp [adamInit, optimizerInit, h2]

/-- Witness for C6 at concrete inputs. -/
theorem optimizer_negative_lr_witness :
    ((-1 : ℚ) < 0 ∧
        optimizerInit [0] (-1) =
          Except.error ("Invalid learning rate: " ++ toString (-1 : ℚ))) ∧
      (0 ≤ (1 : ℚ) ∧ optimizerInit [0] 1 = Except.ok ⟨[0], 1⟩) :=
  ⟨⟨by norm_num, ((optimizer_negative_lr [0] (-1)).1 (by norm_num)).1⟩,
    ⟨by norm_num, ((optimizer_negative_lr [0] 1).2 (by norm_num)).1⟩⟩

/-! `SGD.step` / `Optimizer.zero_grad`. -/

theorem sgd_fold_spec (lr : ℚ) :
    ∀ (l : List Nat) (st : Store), l.Nodup → (∀ p ∈ l, p < st.length) →
      (∀ p ∈ l,
          dataOf
            (l.foldl
              (fun st p => updData st p (dataOf st p - lr * gradOf st p)) st)
            p =
          dataOf st p - lr * gradOf st p) ∧
      (∀ q, q ∉ l →
          dataOf
            (l.foldl
              (fun st p => updData st p (dataOf st p - lr * gradOf st p)) st)
            q =
          dataOf st q) ∧
      (∀ q,
          gradOf
            (l.foldl
              (fun st p => updData st p (dataOf st p - lr * gradOf st p)) st)
            q =
          gradOf st q) := by
  intro l
  induction l with
  | nil => exact fun st _ _ => ⟨fun p hp => absurd hp (List.not_mem_nil p),
      fun q _ => rfl, fun q => rfl⟩
  | cons h t ih =>
    intro st hnd hval
    have hnd' : t.Nodup := (List.nodup_cons.mp hnd).2
    have hht : h ∉ t := (List.nodup_cons.mp hnd).1
    have hval' : ∀ p ∈ t, p < (updData st h (dataOf st h - lr * gradOf st h)).length := by
      intro p hp
      rw [length_updData]
      exact hval p (List.mem_cons_of_mem h hp)
    obtain ⟨ih1, ih2, ih3⟩ := ih (updData st h (dataOf st h - lr * gradOf st h)) hnd' hval'
    refine ⟨?_, ?_, ?_⟩
    · intro p hp
      rcases List.mem_cons.mp hp with hph | hpt
      · subst hph
        rw [List.foldl_cons, ih2 p hht,
          dataOf_updData_self st p _ (hval p (List.mem_cons_self p t))]
      · rw [List.foldl_cons, ih1 p hpt,
          dataOf_updData_ne st h p _ (fun he => hht (he ▸ hpt)),
          gradOf_updData]
    · intro q hq
      have hqh : h ≠ q := fun he => hq (he ▸ List.mem_cons_self h t)
      have hqt : q ∉ t := fun hc => hq (List.mem_cons_of_mem h hc)
      rw [List.foldl_cons, ih2 q hqt, dataOf_updData_ne st h q _ hqh]
    · intro q
      rw [List.foldl_cons, ih3 q, gradOf_updData]

/-- C7: every call of `SGD.step()` updates each owned parameter `p` (the
parameters being pairwise distinct objects) by exactly
`p.data -= lr * p.grad`, unconditionally. -/
theorem sgd_step_update (o : OptState) (s : Store) (hnd : o.params.Nodup)
    (hval : ∀ p ∈ o.params, p < s.length) :
    ∀ p ∈ o.params, dataOf (sgdStep o s) p = dataOf s p - o.lr * gradOf s p :=
  fun p hp => (sgd_fold_spec o.lr o.params s hnd hval).1 p hp

/-- Witness for C7: `lr = 0.1`, one parameter with `data = 5.0` and
`grad = 2.0`; after `step()` its data is `4.8`. -/
theorem sgd_step_update_witness :
    dataOf (sgdStep ⟨[0], 1/10⟩ sgdStore) 0 = (4.8 : ℚ) := by
  have h := sgd_step_update ⟨[0], 1/10⟩ sgdStore (by simp) (by simp [sgdStore]) 0 (by simp)
  rw [h]
  norm_num [dataOf, gradOf, nodeAt, sgdStore]

theorem zero_fold_grad :
    ∀ (l : List Nat) (st : Store) (p : Nat), (p ∈ l ∨ gradOf st p = 0) →
      gradOf (l.foldl (fun st p => updGrad st p 0) st) p = 0 := by
  intro l
  induction l with
  | nil =>
    intro st p hp
    rcases hp with hp | hp
    · exact absurd hp (List.not_mem_nil p)
    · exact hp
  | cons h t ih =>
    intro st p hp
    rw [List.foldl_cons]
    apply ih
    by_cases hph : p = h
    · subst hph
      right
      by_cases hv : p < st.length
      · exact gradOf_updGrad_self st p 0 hv
      · rw [updGrad_oor st p 0 hv]
        exact gradOf_oor st p hv
    · rcases hp with hp | hp
      · rcases List.mem_cons.mp hp with hc | hc
        · exact absurd hc hph
        · exact Or.inl hc
      · right
        rw [gradOf_updGrad_ne st h p 0 (fun he => hph he.symm)]
        exact hp

theorem zero_fold_id :
    ∀ (l : List Nat) (st : Store), (∀ p ∈ l, gradOf st p = 0) →
      l.foldl (fun st p => updGrad st p 0) st = st := by
  intro l
  induction l with
  | nil => exact fun st _ => rfl
  | cons h t ih =>
    intro st hz
    rw [List.foldl_cons, updGrad_eq_self st h (hz h (List.mem_cons_self h t))]
    exact ih st (fun p hp => hz p (List.mem_cons_of_mem h hp))

/-- C8: `zero_grad()` zeroes the gradient of every owned parameter, and it
is idempotent — a second call changes nothing at all (the second pass
rewrites each gradient with the `0` it already holds). -/
theorem zero_grad_idempotent (o : OptState) (s : Store) :
    (∀ p ∈ o.params, gradOf (zeroGrad o s) p = 0) ∧
      zeroGrad o (zeroGrad o s) = zeroGrad o s := by
  constructor
  · intro p hp
    exact zero_fold_grad o.params s p (Or.inl hp)
  · exact zero_fold_id o.params (zeroGrad o s)
      (fun p hp => zero_fold_grad o.params s p (Or.inl hp))

/-- Witness for C8 on a concrete optimizer state and store. -/
theorem zero_grad_idempotent_witness :
    gradOf (zeroGrad ⟨[0], 1/10⟩ sgdStore) 0 = 0 ∧
      zeroGrad ⟨[0], 1/10⟩ (zeroGrad ⟨[0], 1/10⟩ sgdStore) =
        zeroGrad ⟨[0], 1/10⟩ sgdStore :=
  ⟨(zero_grad_idempotent ⟨[0], 1/10⟩ sgdStore).1 0 (by simp),
    (zero_grad_idempotent ⟨[0], 1/10⟩ sgdStore).2⟩

/-! `Neuron.forward` (C4, C5). -/

theorem dataOf_append_old (s : Store) (n : Node) (j : Nat) (h : j < s.length) :
    dataOf (s ++ [n]) j = dataOf s j := by
  unfold dataOf nodeAt
  rw [List.getD_append s [n] default j h]

theorem dataOf_append_new (s : Store) (n : Node) :
    dataOf (s ++ [n]) s.length = n.data := by
  unfold dataOf nodeAt
  simp [List.getD_append_right]

theorem neuron_step (acc : Nat) (st : Store) (wx : Nat × Nat)
    (hacc : acc < st.length) :
    vadd acc (vmul wx.1 wx.2 st).1 (vmul wx.1 wx.2 st).2 =
      (st.length + 1,
        (st ++ [(⟨dataOf st wx.1 * dataOf st wx.2, Op.mul wx.1 wx.2, 0⟩ : Node)]) ++
          [⟨dataOf st acc + dataOf st wx.1 * dataOf st wx.2,
            Op.add acc st.length, 0⟩]) := by
  have h1 : dataOf (st ++ [(⟨dataOf st wx.1 * dataOf st wx.2,
      Op.mul wx.1 wx.2, 0⟩ : Node)]) acc = dataOf st acc :=
    dataOf_append_old st _ acc hacc
  have h2 : dataOf (st ++ [(⟨dataOf st wx.1 * dataOf st wx.2,
      Op.mul wx.1 wx.2, 0⟩ : Node)]) st.length =
      dataOf st wx.1 * dataOf st wx.2 :=
    dataOf_append_new st _
  simp only [vmul, vadd, Prod.mk.injEq, List.length_append,
    List.length_singleton, h1, h2]

theorem neuron_fold_spec (l : List (Nat × Nat)) :
    ∀ (acc : Nat) (st : Store), acc < st.length →
      (∀ p ∈ l, p.1 < st.length ∧ p.2 < st.length) →
      (l.foldl (fun (ac : Nat × Store) (wx : Nat × Nat) =>
          vadd ac.1 (vmul wx.1 wx.2 ac.2).1 (vmul wx.1 wx.2 ac.2).2) (acc, st)).1 <
        (l.foldl (fun (ac : Nat × Store) (wx : Nat × Nat) =>
          vadd ac.1 (vmul wx.1 wx.2 ac.2).1 (vmul wx.1 wx.2 ac.2).2) (acc, st)).2.length ∧
      st.length ≤ (l.foldl (fun (ac : Nat × Store) (wx : Nat × Nat) =>
          vadd ac.1 (vmul wx.1 wx.2 ac.2).1 (vmul wx.1 wx.2 ac.2).2) (acc, st)).2.length ∧
      (∀ j, j < st.length →
        dataOf (l.foldl (fun (ac : Nat × Store) (wx : Nat × Nat) =>
          vadd ac.1 (vmul wx.1 wx.2 ac.2).1 (vmul wx.1 wx.2 ac.2).2) (acc, st)).2 j = dataOf st j) ∧
      dataOf (l.foldl (fun (ac : Nat × Store) (wx : Nat × Nat) =>
          vadd ac.1 (vmul wx.1 wx.2 ac.2).1 (vmul wx.1 wx.2 ac.2).2) (acc, st)).2
        (l.foldl (fun (ac : Nat × Store) (wx : Nat × Nat) =>
          vadd ac.1 (vmul wx.1 wx.2 ac.2).1 (vmul wx.1 wx.2 ac.2).2) (acc, st)).1 =
        dataOf st acc + (l.map (fun p => dataOf st p.1 * dataOf st p.2)).sum := by
  induction l with
  | nil =>
    intro acc st hacc _
    exact ⟨hacc, le_refl _, fun j _ => rfl, by simp⟩
  | cons wx t ih =>
    intro acc st hacc hval
    have hw : wx.1 < st.length := (hval wx (List.mem_cons_self wx t)).1
    have hx : wx.2 < st.length := (hval wx (List.mem_cons_self wx t)).2
    simp only [List.foldl_cons]
    rw [neuron_step acc st wx hacc]
    have hacc2 : st.length + 1 <
        ((st ++ [(⟨dataOf st wx.1 * dataOf st wx.2, Op.mul wx.1 wx.2, 0⟩ : Node)]) ++
          [(⟨dataOf st acc + dataOf st wx.1 * dataOf st wx.2,
            Op.add acc st.length, 0⟩ : Node)]).length := by
      simp
    have hval2 : ∀ p ∈ t, p.1 <
        ((st ++ [(⟨dataOf st wx.1 * dataOf st wx.2, Op.mul wx.1 wx.2, 0⟩ : Node)]) ++
          [(⟨dataOf st acc + dataOf st wx.1 * dataOf st wx.2,
            Op.add acc st.length, 0⟩ : Node)]).length ∧ p.2 <
        ((st ++ [(⟨dataOf st wx.1 * dataOf st wx.2, Op.mul wx.1 wx.2, 0⟩ : Node)]) ++
          [(⟨dataOf st acc + dataOf st wx.1 * dataOf st wx.2,
            Op.add acc st.length, 0⟩ : Node)]).length := by
      intro p hp
      have h0 := hval p (List.mem_cons_of_mem wx hp)
      refine ⟨?_, ?_⟩
      · simp only [List.length_append, List.length_singleton]
        omega
      · simp only [List.length_append, List.length_singleton]
        omega
    obtain ⟨c1, c2, c3, c4⟩ := ih (st.length + 1) _ hacc2 hval2
    have hpres : ∀ j, j < st.length →
        dataOf ((st ++ [⟨dataOf st wx.1 * dataOf st wx.2,
          Op.mul wx.1 wx.2, 0⟩]) ++
          [(⟨dataOf st acc + dataOf st wx.1 * dataOf st wx.2,
            Op.add acc st.length, 0⟩ : Node)]) j = dataOf st j := by
      intro j hj
      rw [dataOf_append_old _ _ j
        (by simp only [List.length_append, List.length_singleton]; omega),
        dataOf_append_old _ _ j hj]
    refine ⟨c1, ?_, ?_, ?_⟩
    · refine le_trans ?_ c2
      simp only [List.length_append, List.length_singleton]
      omega
    · intro j hj
      rw [c3 j (by simp only [List.length_append, List.length_singleton]; omega),
        hpres j hj]
    · rw [c4]
      have hnew : dataOf ((st ++ [⟨dataOf st wx.1 * dataOf st wx.2,
          Op.mul wx.1 wx.2, 0⟩]) ++
          [(⟨dataOf st acc + dataOf st wx.1 * dataOf st wx.2,
            Op.add acc st.length, 0⟩ : Node)]) (st.length + 1) =
          dataOf st acc + dataOf st wx.1 * dataOf st wx.2 := by
        have hh := dataOf_append_new
          (st ++ [(⟨dataOf st wx.1 * dataOf st wx.2, Op.mul wx.1 wx.2, 0⟩ : Node)])
          (⟨dataOf st acc + dataOf st wx.1 * dataOf st wx.2,
            Op.add acc st.length, 0⟩ : Node)
        simpa using hh
      rw [hnew]
      have hmap : t.map (fun p =>
          dataOf ((st ++ [⟨dataOf st wx.1 * dataOf st wx.2,
            Op.mul wx.1 wx.2, 0⟩]) ++
            [(⟨dataOf st acc + dataOf st wx.1 * dataOf st wx.2,
              Op.add acc st.length, 0⟩ : Node)]) p.1 *
          dataOf ((st ++ [⟨dataOf st wx.1 * dataOf st wx.2,
            Op.mul wx.1 wx.2, 0⟩]) ++
            [(⟨dataOf st acc + dataOf st wx.1 * dataOf st wx.2,
              Op.add acc st.length, 0⟩ : Node)]) p.2) =
          t.map (fun p => dataOf st p.1 * dataOf st p.2) := by
        apply List.map_congr_left
        intro p hp
        have h0 := hval p (List.mem_cons_of_mem wx hp)
        rw [hpres p.1 h0.1, hpres p.2 h0.2]
      rw [hmap]
      simp only [List.map_cons, List.sum_cons]
      ring

/-- C4: `Neuron.forward` raises the shape-mismatch `ValueError` exactly
when the input length differs from the stored weight count; the check runs
before any graph construction, so on the error path the store — hence
every existing node's `data` and `grad` — is untouched and no partial
expression graph is observable. -/
theorem neuron_forward_shape_error (nr : Neuron) (x : List Nat) (s : Store) :
    ((∃ e, (neuronForward nr x s).1 = Except.error e) ↔
        x.length ≠ nr.w.length) ∧
      (x.length ≠ nr.w.length →
        neuronForward nr x s =
          (Except.error ("Expected input of length " ++ toString nr.w.length ++
            ", but got " ++ toString x.length ++ "."), s)) := by
  by_cases h : x.length ≠ nr.w.length
  · constructor
    · simp [neuronForward, h]
    · intro _
      simp [neuronForward, h]
  · constructor
    · simp [neuronForward, h]
    · intro hc
      exact absurd hc h

/-- Witness for C4: a two-input neuron applied to an empty input. -/
theorem neuron_forward_shape_error_witness :
    ([] : List Nat).length ≠ exNeuron.w.length ∧
      neuronForward exNeuron [] neuronStore =
        (Except.error ("Expected input of length " ++
          toString exNeuron.w.length ++ ", but got " ++
          toString ([] : List Nat).length ++ "."), neuronStore) :=
  ⟨by decide, (neuron_forward_shape_error exNeuron [] neuronStore).2 (by decide)⟩

/-- C5: on a matching input length, `Neuron.forward` returns a single
node whose value is `sum(weight_i * input_i) + bias` (evaluated on the
current data of the referenced nodes). -/
theorem neuron_forward_value (nr : Neuron) (x : List Nat) (s : Store)
    (hlen : x.length = nr.w.length) (hb : nr.b < s.length)
    (hw : ∀ p ∈ nr.w, p < s.length) (hx : ∀ p ∈ x, p < s.length) :
    ∃ out s2, neuronForward nr x s = (Except.ok out, s2) ∧
      dataOf s2 out =
        ((nr.w.zip x).map (fun p => dataOf s p.1 * dataOf s p.2)).sum +
          dataOf s nr.b := by
  have hne : ¬ x.length ≠ nr.w.length := by omega
  have hval : ∀ p ∈ nr.w.zip x, p.1 < s.length ∧ p.2 < s.length := by
    intro p hp
    exact ⟨hw p.1 (List.of_mem_zip hp).1, hx p.2 (List.of_mem_zip hp).2⟩
  obtain ⟨c1, c2, c3, c4⟩ := neuron_fold_spec (nr.w.zip x) nr.b s hb hval
  refine ⟨((nr.w.zip x).foldl (fun (ac : Nat × Store) (wx : Nat × Nat) =>
      vadd ac.1 (vmul wx.1 wx.2 ac.2).1 (vmul wx.1 wx.2 ac.2).2) (nr.b, s)).1,
    ((nr.w.zip x).foldl (fun (ac : Nat × Store) (wx : Nat × Nat) =>
      vadd ac.1 (vmul wx.1 wx.2 ac.2).1 (vmul wx.1 wx.2 ac.2).2) (nr.b, s)).2,
    ?_, ?_⟩
  · simp only [neuronForward, hne, if_false]
  · rw [c4]
    ring

/-- Witness for C5: weights `0.5, -0.5`, bias `0`, inputs of value `2`
give an output node of value `0`. -/
theorem neuron_forward_value_witness :
    ∃ out s2, neuronForward exNeuron [3, 4] neuronStore = (Except.ok out, s2) ∧
      dataOf s2 out = 0 := by
  obtain ⟨out, s2, he, hd⟩ := neuron_forward_value exNeuron [3, 4] neuronStore
    (by decide) (by decide) (by decide) (by decide)
  refine ⟨out, s2, he, ?_⟩
  rw [hd]
  norm_num [exNeuron, neuronStore, dataOf, nodeAt, List.zip, List.zipWith]

/-! C2: the concrete accumulation example `y = x * x + 3`. -/

/-- C2: building `y = x * x + 3` on a leaf `x` with value `d` (grad `0`,
as construction initialises it) and running `y.backward()` leaves
`x.grad = 2 * d` — the two uses of `x` in `x * x` each contribute `d`,
accumulated with `+=` — and `y.data = d * d + 3`; at `d = 2` this gives
`y.data = 7` and `x.grad = 4` (the graph has no power node, so the result
holds for every power routine `fp`). -/
theorem square_plus_three_grad (fp : ℚ → ℚ → ℚ) (d : ℚ) :
    gradOf (backward fp (c2Graph d).2 (c2Graph d).1) 0 = 2 * d ∧
      dataOf (c2Graph d).2 (c2Graph d).1 = d * d + 3 ∧
      gradOf (backward fp (c2Graph 2).2 (c2Graph 2).1) 0 = 4 ∧
      dataOf (c2Graph 2).2 (c2Graph 2).1 = 7 := by
  have hg : ∀ e : ℚ,
      gradOf (backward fp (c2Graph e).2 (c2Graph e).1) 0 = 2 * e := by
    intro e
    simp [c2Graph, mkValue, vmul, vaddConst, vadd, backward, execOrder,
      topoSort, buildTopoF, prevOf, slots, opOf, nodeAt, dataOf, gradOf,
      applyRule, updGrad]
    ring
  have hd : ∀ e : ℚ, dataOf (c2Graph e).2 (c2Graph e).1 = e * e + 3 := by
    intro e
    simp [c2Graph, mkValue, vmul, vaddConst, vadd, dataOf, nodeAt]
  refine ⟨hg d, hd d, ?_, ?_⟩
  · rw [hg 2]
    norm_num
  · rw [hd 2]
    norm_num

/-! C3: `Module.parameters()`. -/

theorem sizeOf_mem_attrs {a : PyVal} {attrs : List PyVal} (h : a ∈ attrs) :
    sizeOf a < sizeOf attrs := List.sizeOf_lt_of_mem h

theorem mem_moduleParams_iff_aux :
    ∀ (k : Nat) (attrs : List PyVal), sizeOf attrs ≤ k →
      ∀ n, n ∈ moduleParams attrs ↔ Owns attrs n := by
  intro k
  induction k with
  | zero =>
    intro attrs hk
    cases attrs with
    | nil =>
      intro n
      constructor
      · intro h
        simp [moduleParams] at h
      · intro h
        cases h with
        | attrValue hm => exact absurd hm (List.not_mem_nil _)
        | listValue hm _ => exact absurd hm (List.not_mem_nil _)
        | listModule hm _ _ => exact absurd hm (List.not_mem_nil _)
        | attrModule hm _ => exact absurd hm (List.not_mem_nil _)
    | cons a t => simp at hk
  | succ k ih =>
    intro attrs hk n
    have hmem : n ∈ moduleParams attrs ↔ ∃ a ∈ attrs, n ∈ attrParams a := by
      rw [moduleParams]
      simp [List.attach_map_val]
    rw [hmem]
    constructor
    · rintro ⟨a, ha, hpa⟩
      have hsa : sizeOf a < sizeOf attrs := sizeOf_mem_attrs ha
      cases a with
      | value m =>
        simp [attrParams] at hpa
        subst hpa
        exact Owns.attrValue ha
      | list items =>
        rw [attrParams] at hpa
        simp [List.attach_map_val] at hpa
        obtain ⟨it, hit, hpit⟩ := hpa
        have hsit : sizeOf it < sizeOf items := sizeOf_mem_attrs hit
        cases it with
        | value m =>
          simp [itemParams] at hpit
          subst hpit
          exact Owns.listValue ha hit
        | module sub =>
          rw [itemParams] at hpit
          have hss : sizeOf sub ≤ k := by
            simp only [PyVal.list.sizeOf_spec] at hsa
            simp only [PyVal.module.sizeOf_spec] at hsit
            omega
          exact Owns.listModule ha hit ((ih sub hss n).mp hpit)
        | list l2 => simp [itemParams] at hpit
        | other => simp [itemParams] at hpit
      | module sub =>
        rw [attrParams] at hpa
        have hss : sizeOf sub ≤ k := by
          simp only [PyVal.module.sizeOf_spec] at hsa
          omega
        exact Owns.attrModule ha ((ih sub hss n).mp hpa)
      | other => simp [attrParams] at hpa
    · intro h
      cases h with
      | attrValue ha =>
        exact ⟨_, ha, by simp [attrParams]⟩
      | listValue ha hit =>
        refine ⟨_, ha, ?_⟩
        rw [attrParams]
        simp [List.attach_map_val]
        exact ⟨_, hit, by simp [itemParams]⟩
      | listModule ha hit hsub =>
        rename_i items sub
        refine ⟨_, ha, ?_⟩
        rw [attrParams]
        simp [List.attach_map_val]
        have hsa : sizeOf (PyVal.list items) < sizeOf attrs := sizeOf_mem_attrs ha
        have hsit : sizeOf (PyVal.module sub) < sizeOf items := sizeOf_mem_attrs hit
        have hss : sizeOf sub ≤ k := by
          simp only [PyVal.list.sizeOf_spec] at hsa
          simp only [PyVal.module.sizeOf_spec] at hsit
          omega
        refine ⟨_, hit, ?_⟩
        rw [itemParams]
        exact (ih sub hss n).mpr hsub
      | attrModule ha hsub =>
        rename_i sub
        refine ⟨_, ha, ?_⟩
        rw [attrParams]
        have hsa : sizeOf (PyVal.module sub) < sizeOf attrs := sizeOf_mem_attrs ha
        have hss : sizeOf sub ≤ k := by
          simp only [PyVal.module.sizeOf_spec] at hsa
          omega
        exact (ih sub hss n).mpr hsub

theorem itemParams_map_value (w : List Nat) :
    ((w.map PyVal.value).attach.map (fun x => itemParams x.1)).flatten = w := by
  rw [List.attach_map_val]
  induction w with
  | nil => rfl
  | cons h t iht =>
    simp only [List.map_cons, List.flatten_cons]
    rw [iht, itemParams]
    rfl

/-- C3 (amended): `parameters()` yields exactly the transitively owned
parameter nodes (membership coincides with the ownership relation), in the
fixed declaration order — e.g. a `Neuron` yields its weights in order
followed by its bias, and a `Linear` yields its neurons' parameters in
neuron order — and, being a deterministic walk of the attribute lists, two
enumerations of the same module agree.  It does **not** de-duplicate by
identity (see the counterexample). -/
theorem params_enumeration_spec :
    (∀ (attrs : List PyVal) (n : Nat),
        n ∈ moduleParams attrs ↔ Owns attrs n) ∧
      (∀ nr : Neuron, moduleParams nr.toAttrs = nr.w ++ [nr.b]) ∧
      (∀ ns : List Neuron, moduleParams (Linear.toAttrs ns) =
        (ns.map (fun nr => nr.w ++ [nr.b])).flatten) := by
  have hneuron : ∀ nr : Neuron, moduleParams nr.toAttrs = nr.w ++ [nr.b] := by
    intro nr
    rw [Neuron.toAttrs, moduleParams]
    simp only [List.attach_map_val, List.map_cons, List.map_nil,
      List.flatten_cons, List.flatten_nil, List.append_nil]
    rw [attrParams, attrParams, itemParams_map_value]
  refine ⟨fun attrs n => mem_moduleParams_iff_aux (sizeOf attrs) attrs
    (le_refl _) n, hneuron, ?_⟩
  intro ns
  rw [Linear.toAttrs, moduleParams]
  simp only [List.attach_map_val, List.map_cons, List.map_nil,
    List.flatten_cons, List.flatten_nil, List.append_nil]
  rw [attrParams]
  rw [List.attach_map_val]
  induction ns with
  | nil => rfl
  | cons nr t iht =>
    simp only [List.map_cons, List.flatten_cons] at iht ⊢
    rw [iht, itemParams, hneuron nr]

/-- Counterexample for C3 as stated: a module holding the same `Value`
object in two attributes — `parameters()` yields the node once per
attribute, with no identity-based de-duplication. -/
theorem params_duplicate_counterexample :
    moduleParams [PyVal.value 0, PyVal.value 0] = [0, 0] ∧
      ¬ (moduleParams [PyVal.value 0, PyVal.value 0]).Nodup := by
  have h : moduleParams [PyVal.value 0, PyVal.value 0] = [0, 0] := by
    rw [moduleParams]
    simp [List.attach_map_val, attrParams]
  exact ⟨h, by rw [h]; decide⟩

/-! The depth-first post-order traversal: structural facts. -/

theorem mem_prevOf (s : Store) (v c : Nat) :
    c ∈ prevOf s v ↔ c ∈ slots (opOf s v) := List.mem_dedup

theorem childClosedP_mono (s : Store) {G G' : Nat → Prop} {L : List Nat}
    (h : ∀ c, G c → G' c) (hc : ChildClosedP s G L) : ChildClosedP s G' L := by
  intro l1 m l2 hdec c hcs
  rcases hc l1 m l2 hdec c hcs with h1 | h2
  · exact Or.inl h1
  · exact Or.inr (h c h2)

theorem childClosedP_append (s : Store) {G : Nat → Prop} {L1 L2 : List Nat}
    (h1 : ChildClosedP s G L1)
    (h2 : ∀ l1 m l2, L2 = l1 ++ m :: l2 →
      ∀ c ∈ slots (opOf s m), c ∈ L1 ++ l1 ∨ G c) :
    ChildClosedP s G (L1 ++ L2) := by
  intro l1 m l2 hdec c hcs
  rcases List.append_eq_append_iff.mp hdec with ⟨a, ha1, ha2⟩ | ⟨a, ha1, ha2⟩
  · -- l1 = L1 ++ a and L2 = a ++ m :: l2 : m falls in L2
    rcases h2 a m l2 ha2 c hcs with hr | hr
    · rw [ha1]
      exact Or.inl hr
    · exact Or.inr hr
  · -- L1 = l1 ++ a and a ++ L2 = m :: l2
    cases a with
    | nil =>
      rcases h2 [] m l2 (by simpa using ha2.symm) c hcs with hr | hr
      · rw [List.append_nil] at hr
        have hL : L1 = l1 := by simpa using ha1
        rw [hL] at hr
        exact Or.inl hr
      · exact Or.inr hr
    | cons x a' =>
      have h0 := ha2
      simp only [List.cons_append] at h0
      injection h0 with hx hy
      subst hx
      rcases h1 l1 m a' ha1 c hcs with hr | hr
      · exact Or.inl hr
      · exact Or.inr hr

theorem childClosedP_split (s : Store) {G : Nat → Prop} {L1 L2 : List Nat}
    (h : ChildClosedP s G (L1 ++ L2)) :
    ChildClosedP s G L1 ∧
      (∀ l1 m l2, L2 = l1 ++ m :: l2 →
        ∀ c ∈ slots (opOf s m), c ∈ L1 ++ l1 ∨ G c) := by
  constructor
  · intro l1 m l2 hdec c hcs
    rcases h l1 m (l2 ++ L2) (by rw [hdec]; simp) c hcs with hr | hr
    · exact Or.inl hr
    · exact Or.inr hr
  · intro l1 m l2 hdec c hcs
    rcases h (L1 ++ l1) m l2 (by rw [hdec]; simp) c hcs with hr | hr
    · exact Or.inl hr
    · exact Or.inr hr

theorem childClosedP_nil (s : Store) (G : Nat → Prop) : ChildClosedP s G [] := by
  intro l1 m l2 hdec c hcs
  exact absurd hdec (by simp)

/-- Full specification of the depth-first traversal `_build_topo`, proved
by induction on the fuel: starting from an accumulator `(vis, topo)`
satisfying the traversal invariants, visiting `v` appends a block `Δ` of
newly visited nodes (all `≤ v`, valid, fresh), marks exactly `Δ` as newly
visited, keeps the list duplicate-free, and keeps every appended node's
operands either earlier in the list or on the current DFS stack (the nodes
that are visited but not yet appended). -/
theorem buildTopo_spec (s : Store) (hwf : Wf s) :
    ∀ fuel : Nat, ∀ (v : Nat) (vis topo : List Nat), v < s.length →
      v + 1 ≤ fuel →
      (∀ x ∈ topo, x ∈ vis) → topo.Nodup →
      (∀ x ∈ vis, x < s.length) →
      (∀ g ∈ vis, g ∉ topo → v ≤ g) →
      ChildClosedP s (fun c => c ∈ vis ∧ c ∉ topo) topo →
      ∃ Δ : List Nat,
        (buildTopoF fuel s v (vis, topo)).2 = topo ++ Δ ∧
        (∀ x, x ∈ (buildTopoF fuel s v (vis, topo)).1 ↔ x ∈ vis ∨ x ∈ Δ) ∧
        (∀ x ∈ Δ, x ∉ vis) ∧
        (topo ++ Δ).Nodup ∧
        (∀ x ∈ Δ, x ≤ v ∧ x < s.length) ∧
        (v ∈ vis ∨ v ∈ Δ) ∧
        ChildClosedP s (fun c => c ∈ vis ∧ c ∉ topo) (topo ++ Δ) := by
  intro fuel
  induction fuel with
  | zero =>
    intro v vis topo hvlen hfuel
    omega
  | succ fuel ih =>
    intro v vis topo hvlen hfuel hsub hnodup hvalid hgrey hclosed
    by_cases hv : v ∈ vis
    · refine ⟨[], ?_, ?_, ?_, ?_, ?_, ?_, ?_⟩
      · simp [buildTopoF, hv]
      · intro x
        simp [buildTopoF, hv]
      · intro x hx
        exact absurd hx (List.not_mem_nil x)
      · simpa using hnodup
      · intro x hx
        exact absurd hx (List.not_mem_nil x)
      · exact Or.inl hv
      · simpa using hclosed
    · have hcs : ∀ c ∈ prevOf s v, c < v :=
        fun c hc => hwf v hvlen c ((mem_prevOf s v c).mp hc)
      have foldSpec : ∀ (cs : List Nat), (∀ c ∈ cs, c < v) →
          ∀ (vis1 topo1 : List Nat),
          (∀ x ∈ topo1, x ∈ vis1) → topo1.Nodup →
          (∀ x ∈ vis1, x < s.length) →
          (∀ g ∈ vis1, g ∉ topo1 → v ≤ g) →
          ChildClosedP s (fun x => x ∈ vis1 ∧ x ∉ topo1) topo1 →
          ∃ Δ : List Nat,
            (cs.foldl (fun a c => buildTopoF fuel s c a) (vis1, topo1)).2 =
              topo1 ++ Δ ∧
            (∀ x, x ∈ (cs.foldl (fun a c => buildTopoF fuel s c a)
              (vis1, topo1)).1 ↔ x ∈ vis1 ∨ x ∈ Δ) ∧
            (∀ x ∈ Δ, x ∉ vis1) ∧
            (topo1 ++ Δ).Nodup ∧
            (∀ x ∈ Δ, x < v ∧ x < s.length) ∧
            (∀ c ∈ cs, c ∈ (cs.foldl (fun a c => buildTopoF fuel s c a)
              (vis1, topo1)).1) ∧
            ChildClosedP s (fun x => x ∈ vis1 ∧ x ∉ topo1) (topo1 ++ Δ) := by
        intro cs
        induction cs with
        | nil =>
          intro _ vis1 topo1 hsub1 hnd1 hval1 hg1 hcl1
          refine ⟨[], by simp, fun x => by simp, ?_, by simpa using hnd1,
            ?_, ?_, by simpa using hcl1⟩
          · intro x hx
            exact absurd hx (List.not_mem_nil x)
          · intro x hx
            exact absurd hx (List.not_mem_nil x)
          · intro c hc
            exact absurd hc (List.not_mem_nil c)
        | cons c cs' ihc =>
          intro hlt vis1 topo1 hsub1 hnd1 hval1 hg1 hcl1
          have hcv : c < v := hlt c (List.mem_cons_self c cs')
          have hclen : c < s.length := lt_trans hcv hvlen
          have hcfuel : c + 1 ≤ fuel := by omega
          obtain ⟨Δc, hC1, hC2, hC3, hC4, hC5, hC6, hC7⟩ :=
            ih c vis1 topo1 hclen hcfuel hsub1 hnd1 hval1
              (fun g hg hgt => le_of_lt (lt_of_lt_of_le hcv (hg1 g hg hgt)))
              hcl1
          rcases hA : buildTopoF fuel s c (vis1, topo1) with ⟨vis2, topo2⟩
          rw [hA] at hC1 hC2
          simp only at hC1 hC2
          -- the invariants for the stepped accumulator
          have htopo2 : topo2 = topo1 ++ Δc := hC1
          have hsub2 : ∀ x ∈ topo2, x ∈ vis2 := by
            intro x hx
            rw [htopo2] at hx
            rcases List.mem_append.mp hx with hx | hx
            · exact (hC2 x).mpr (Or.inl (hsub1 x hx))
            · exact (hC2 x).mpr (Or.inr hx)
          have hnd2 : topo2.Nodup := by
            rw [htopo2]
            exact hC4
          have hval2 : ∀ x ∈ vis2, x < s.length := by
            intro x hx
            rcases (hC2 x).mp hx with hx | hx
            · exact hval1 x hx
            · exact (hC5 x hx).2
          have hgrey2 : ∀ g ∈ vis2, g ∉ topo2 → v ≤ g := by
            intro g hg hgt
            rcases (hC2 g).mp hg with hg' | hg'
            · refine hg1 g hg' ?_
              intro hc0
              exact hgt (by rw [htopo2]; exact List.mem_append.mpr (Or.inl hc0))
            · exact absurd
                (by rw [htopo2]; exact List.mem_append.mpr (Or.inr hg')) hgt
          have hcl2 : ChildClosedP s (fun x => x ∈ vis2 ∧ x ∉ topo2) topo2 := by
            rw [htopo2]
            refine childClosedP_mono s ?_ hC7
            rintro x ⟨hx1, hx2⟩
            refine ⟨(hC2 x).mpr (Or.inl hx1), ?_⟩
            intro hc0
            rcases List.mem_append.mp hc0 with h' | h'
            · exact hx2 h'
            · exact (hC3 x h') hx1
          obtain ⟨Δt, hT1, hT2, hT3, hT4, hT5, hT6, hT7⟩ :=
            ihc (fun x hx => hlt x (List.mem_cons_of_mem c hx))
              vis2 topo2 hsub2 hnd2 hval2 hgrey2 hcl2
          have hfold : (c :: cs').foldl (fun a c => buildTopoF fuel s c a)
              (vis1, topo1) =
              cs'.foldl (fun a c => buildTopoF fuel s c a) (vis2, topo2) := by
            rw [List.foldl_cons, hA]
          refine ⟨Δc ++ Δt, ?_, ?_, ?_, ?_, ?_, ?_, ?_⟩
          · rw [hfold, hT1, htopo2, List.append_assoc]
          · intro x
            rw [hfold]
            rw [hT2 x, hC2 x, List.mem_append]
            tauto
          · intro x hx
            rcases List.mem_append.mp hx with hx | hx
            · exact hC3 x hx
            · intro hc0
              exact hT3 x hx ((hC2 x).mpr (Or.inl hc0))
          · rw [← List.append_assoc, ← htopo2]
            exact hT4
          · intro x hx
            rcases List.mem_append.mp hx with hx | hx
            · exact ⟨lt_of_le_of_lt (hC5 x hx).1 hcv, (hC5 x hx).2⟩
            · exact hT5 x hx
          · intro c0 hc0
            rw [hfold]
            rcases List.mem_cons.mp hc0 with hc0 | hc0
            · subst hc0
              exact (hT2 c0).mpr (Or.inl ((hC2 c0).mpr hC6))
            · exact hT6 c0 hc0
          · rw [← List.append_assoc, ← htopo2]
            refine childClosedP_mono s ?_ hT7
            rintro x ⟨hx1, hx2⟩
            rcases (hC2 x).mp hx1 with h' | h'
            · refine ⟨h', ?_⟩
              intro hc0
              exact hx2 (by rw [htopo2]; exact List.mem_append.mpr (Or.inl hc0))
            · exact absurd (by
                rw [htopo2]
                exact List.mem_append.mpr (Or.inr h')) hx2
      obtain ⟨Δ', hF1, hF2, hF3, hF4, hF5, hF6, hF7⟩ :=
        foldSpec (prevOf s v) hcs (v :: vis) topo
          (fun x hx => List.mem_cons_of_mem v (hsub x hx))
          hnodup
          (fun x hx => by
            rcases List.mem_cons.mp hx with h' | h'
            · subst h'
              exact hvlen
            · exact hvalid x h')
          (fun g hg hgt => by
            rcases List.mem_cons.mp hg with h' | h'
            · subst h'
              exact le_refl _
            · exact hgrey g h' hgt)
          (childClosedP_mono s
            (fun x hx => ⟨List.mem_cons_of_mem v hx.1, hx.2⟩) hclosed)
      have hres : buildTopoF (fuel + 1) s v (vis, topo) =
          (((prevOf s v).foldl (fun a c => buildTopoF fuel s c a)
              (v :: vis, topo)).1,
            ((prevOf s v).foldl (fun a c => buildTopoF fuel s c a)
              (v :: vis, topo)).2 ++ [v]) := by
        simp [buildTopoF, hv]
      have hvnotintopo : v ∉ topo := fun hc => hv (hsub v hc)
      have hvnotinΔ : v ∉ Δ' := fun hc => lt_irrefl v (hF5 v hc).1
      refine ⟨Δ' ++ [v], ?_, ?_, ?_, ?_, ?_, ?_, ?_⟩
      · rw [hres]
        simp only
        rw [hF1, List.append_assoc]
      · intro x
        rw [hres]
        simp only
        rw [hF2 x]
        simp only [List.mem_cons, List.mem_append, List.mem_singleton]
        tauto
      · intro x hx
        rcases List.mem_append.mp hx with h' | h'
        · exact fun hc => hF3 x h' (List.mem_cons_of_mem v hc)
        · rw [List.mem_singleton] at h'
          subst h'
          exact hv
      · rw [← List.append_assoc]
        rw [List.nodup_append]
        refine ⟨hF4, List.nodup_singleton v, ?_⟩
        intro x hx
        rw [List.mem_singleton]
        intro he
        subst he
        rcases List.mem_append.mp hx with h' | h'
        · exact hvnotintopo h'
        · exact hvnotinΔ h'
      · intro x hx
        rcases List.mem_append.mp hx with h' | h'
        · exact ⟨le_of_lt (hF5 x h').1, (hF5 x h').2⟩
        · rw [List.mem_singleton] at h'
          subst h'
          exact ⟨le_refl _, hvlen⟩
      · exact Or.inr (List.mem_append.mpr (Or.inr (List.mem_singleton.mpr rfl)))
      · refine childClosedP_append s hclosed ?_
        intro l1 m l2 hdec c0 hc0s
        have hvcase : ∀ hl1 : l1 = Δ', m = v →
            c0 ∈ topo ++ l1 ∨ (c0 ∈ vis ∧ c0 ∉ topo) := by
          intro hl1 hm
          subst hl1
          subst hm
          have hc0v : c0 < m := hwf m hvlen c0 hc0s
          have hc0vis := hF6 c0 ((mem_prevOf s m c0).mpr hc0s)
          rcases (hF2 c0).mp hc0vis with h' | h'
          · rcases List.mem_cons.mp h' with h'' | h''
            · omega
            · by_cases hct : c0 ∈ topo
              · exact Or.inl (List.mem_append.mpr (Or.inl hct))
              · exact Or.inr ⟨h'', hct⟩
          · exact Or.inl (List.mem_append.mpr (Or.inr h'))
        rcases List.append_eq_append_iff.mp hdec with ⟨a, ha1, ha2⟩ | ⟨a, ha1, ha2⟩
        · -- l1 = Δ' ++ a, [v] = a ++ m :: l2 : forces a = [], m = v
          cases a with
          | nil =>
            have hm : m = v := by
              simp at ha2
              exact ha2.1.symm
            have hl1 : l1 = Δ' := by simpa using ha1
            exact hvcase hl1 hm
          | cons y a' =>
            exfalso
            have hlen := congrArg List.length ha2
            simp at hlen
        · -- Δ' = l1 ++ a, a ++ [v] = m :: l2
          cases a with
          | nil =>
            have hm : m = v := by
              simp at ha2
              exact ha2.1
            have hl1 : l1 = Δ' := by simpa using ha1.symm
            exact hvcase hl1 hm
          | cons y a' =>
            have h0 := ha2
            simp only [List.cons_append] at h0
            injection h0 with hy hrest
            subst hy
            have hmΔ : m ∈ Δ' := by
              rw [ha1]
              exact List.mem_append.mpr (Or.inr (List.mem_cons_self m a'))
            have hmv : m < v := (hF5 m hmΔ).1
            have hmlen : m < s.length := (hF5 m hmΔ).2
            have hc0m : c0 < m := hwf m hmlen c0 hc0s
            have hΔdec : Δ' = l1 ++ m :: a' := ha1
            rcases (childClosedP_split s hF7).2 l1 m a' hΔdec c0 hc0s
              with h' | h'
            · exact Or.inl h'
            · rcases List.mem_cons.mp h'.1 with h'' | h''
              · omega
              · exact Or.inr ⟨h'', h'.2⟩

/-- The post-order list produced by `_topological_sort`: no duplicates,
only valid descendants of the root, containing the root, and with every
node's operands strictly earlier in the list. -/
theorem topoSort_facts (s : Store) (root : Nat) (hwf : Wf s)
    (hroot : root < s.length) :
    (topoSort s root).Nodup ∧
      (∀ x ∈ topoSort s root, x ≤ root ∧ x < s.length) ∧
      root ∈ topoSort s root ∧
      ChildClosedP s (fun _ => False) (topoSort s root) := by
  obtain ⟨Δ, h1, h2, h3, h4, h5, h6, h7⟩ :=
    buildTopo_spec s hwf (root + 1) root [] [] hroot (le_refl _)
      (by simp) List.nodup_nil (by simp) (by simp) (childClosedP_nil s _)
  have hts : topoSort s root = Δ := by
    unfold topoSort
    rw [h1]
    simp
  rw [hts]
  refine ⟨by simpa using h4, h5, ?_, ?_⟩
  · rcases h6 with h' | h'
    · exact absurd h' (List.not_mem_nil root)
    · exact h'
  · have h8 : ChildClosedP s (fun c => c ∈ ([] : List Nat) ∧ c ∉ ([] : List Nat)) Δ := by
      have := h7
      simpa using this
    refine childClosedP_mono s ?_ h8
    rintro c ⟨hc, -⟩
    exact absurd hc (List.not_mem_nil c)

/-- Every node reachable from the root is visited: the post-order list is
closed under taking operands and contains the root. -/
theorem mem_topo_of_reaches (s : Store) (root : Nat) (hwf : Wf s)
    (hroot : root < s.length) :
    ∀ n, Reaches s root n → n ∈ topoSort s root := by
  obtain ⟨-, -, hr, hcl⟩ := topoSort_facts s root hwf hroot
  intro n h
  induction h with
  | refl => exact hr
  | step hm hc ihm =>
    rename_i m c
    obtain ⟨l1, l2, hdec⟩ := List.append_of_mem ihm
    rcases hcl l1 m l2 hdec c hc with h' | h'
    · rw [hdec]
      exact List.mem_append.mpr (Or.inl h')
    · exact h'.elim

/-- In the reversed post-order (the execution order of the backward pass),
by the time a node is executed every executed consumer of it has already
run: if the execution list is `P ++ m :: E` then every node of the graph
list that uses `m` lies in `P`. -/
theorem parents_processed (s : Store) (L : List Nat) (hwf : Wf s)
    (hnd : L.Nodup) (hvalid : ∀ x ∈ L, x < s.length)
    (hcl : ChildClosedP s (fun _ => False) L) :
    ∀ P m E, L.reverse = P ++ m :: E →
      ∀ m', m' ∈ L → m ∈ slots (opOf s m') → m' ∈ P := by
  intro P m E hdec m' hm'L hslot
  have hL : L = E.reverse ++ m :: P.reverse := by
    have h0 := congrArg List.reverse hdec
    rw [List.reverse_reverse] at h0
    rw [h0]
    simp
  rcases List.mem_append.mp (by rw [← hL]; exact hm'L) with h' | h'
  · obtain ⟨a, b, hab⟩ := List.append_of_mem h'
    have hL2 : L = a ++ m' :: (b ++ m :: P.reverse) := by
      rw [hL, hab]
      simp
    rcases hcl a m' (b ++ m :: P.reverse) hL2 m hslot with hin | hf
    · exfalso
      have hnd2 := hnd
      rw [hL2] at hnd2
      have hdisj := (List.nodup_append.mp hnd2).2.2
      exact hdisj hin
        (List.mem_cons_of_mem m'
          (List.mem_append.mpr (Or.inr (List.mem_cons_self m _))))
    · exact hf.elim
  · rcases List.mem_cons.mp h' with h'' | h''
    · exfalso
      have hmlen : m < s.length := by
        have h0 := hvalid m' hm'L
        rwa [h''] at h0
      rw [h''] at hslot
      exact lt_irrefl m (hwf m hmlen m hslot)
    · exact List.mem_reverse.mp h''

/-- Effect of one `_backward` closure on the gradients: operand `v` gains
`localCoeff` times the (already final) gradient of the executing node; all
other gradients, including the executing node's own, are unchanged.  The
hypothesis (operands are strictly smaller, true on well-formed stores)
rules out self-referencing closures. -/
theorem gradOf_applyRule (fp : ℚ → ℚ → ℚ) (st : Store) (m : Nat)
    (hch : ∀ c ∈ slots (opOf st m), c < m) :
    ∀ v, gradOf (applyRule fp st m) v =
      gradOf st v + localCoeff fp st m v * gradOf st m := by
  intro v
  cases hop : opOf st m with
  | leaf =>
    simp [applyRule, localCoeff, hop]
  | add a b =>
    have ha : a < m := hch a (by rw [hop]; simp [slots])
    have hb : b < m := hch b (by rw [hop]; simp [slots])
    have ham : a ≠ m := Nat.ne_of_lt ha
    have hbm : b ≠ m := Nat.ne_of_lt hb
    have hmlen : m < st.length := by
      by_contra hc
      rw [opOf, nodeAt, List.getD_eq_default st default (Nat.le_of_not_lt hc)]
        at hop
      exact Op.noConfusion hop
    have halen : a < st.length := lt_trans ha hmlen
    have hblen : b < st.length := lt_trans hb hmlen
    simp only [applyRule, localCoeff, hop]
    have hg1m : gradOf (updGrad st a (gradOf st a + gradOf st m)) m =
        gradOf st m := gradOf_updGrad_ne st a m _ ham
    by_cases hva : v = a
    · subst hva
      by_cases hvb : v = b
      · -- v = a = b : two sequential increments
        subst hvb
        rw [gradOf_updGrad_self _ v _ (by simpa using halen), hg1m,
          gradOf_updGrad_self st v _ halen]
        simp
        ring
      · -- v = a ≠ b
        rw [gradOf_updGrad_ne _ b v _ (fun he => hvb he.symm),
          gradOf_updGrad_self st v _ halen]
        simp [Ne.symm hvb]
    · by_cases hvb : v = b
      · subst hvb
        rw [gradOf_updGrad_self _ v _ (by simpa using hblen), hg1m,
          gradOf_updGrad_ne st a v _ (fun he => hva he.symm)]
        simp [Ne.symm hva]
      · rw [gradOf_updGrad_ne _ b v _ (fun he => hvb he.symm),
          gradOf_updGrad_ne st a v _ (fun he => hva he.symm)]
        simp [Ne.symm hva, Ne.symm hvb]
  | mul a b =>
    have ha : a < m := hch a (by rw [hop]; simp [slots])
    have hb : b < m := hch b (by rw [hop]; simp [slots])
    have ham : a ≠ m := Nat.ne_of_lt ha
    have hbm : b ≠ m := Nat.ne_of_lt hb
    have hmlen : m < st.length := by
      by_contra hc
      rw [opOf, nodeAt, List.getD_eq_default st default (Nat.le_of_not_lt hc)]
        at hop
      exact Op.noConfusion hop
    have halen : a < st.length := lt_trans ha hmlen
    have hblen : b < st.length := lt_trans hb hmlen
    simp only [applyRule, localCoeff, hop]
    have hg1m : gradOf (updGrad st a (gradOf st a + dataOf st b * gradOf st m))
        m = gradOf st m := gradOf_updGrad_ne st a m _ ham
    by_cases hva : v = a
    · subst hva
      by_cases hvb : v = b
      · subst hvb
        rw [gradOf_updGrad_self _ v _ (by simpa using halen), hg1m,
          gradOf_updGrad_self st v _ halen]
        simp
        ring
      · rw [gradOf_updGrad_ne _ b v _ (fun he => hvb he.symm),
          gradOf_updGrad_self st v _ halen]
        simp [Ne.symm hvb]
    · by_cases hvb : v = b
      · subst hvb
        rw [gradOf_updGrad_self _ v _ (by simpa using hblen), hg1m,
          gradOf_updGrad_ne st a v _ (fun he => hva he.symm)]
        simp [Ne.symm hva]
      · rw [gradOf_updGrad_ne _ b v _ (fun he => hvb he.symm),
          gradOf_updGrad_ne st a v _ (fun he => hva he.symm)]
        simp [Ne.symm hva, Ne.symm hvb]
  | pow a e =>
    have ha : a < m := hch a (by rw [hop]; simp [slots])
    have ham : a ≠ m := Nat.ne_of_lt ha
    have hmlen : m < st.length := by
      by_contra hc
      rw [opOf, nodeAt, List.getD_eq_default st default (Nat.le_of_not_lt hc)]
        at hop
      exact Op.noConfusion hop
    have halen : a < st.length := lt_trans ha hmlen
    simp only [applyRule, localCoeff, hop]
    by_cases hva : v = a
    · subst hva
      rw [gradOf_updGrad_self st v _ halen]
      simp
    · rw [gradOf_updGrad_ne st a v _ (fun he => hva he.symm)]
      simp [Ne.symm hva]
  | log a =>
    have ha : a < m := hch a (by rw [hop]; simp [slots])
    have ham : a ≠ m := Nat.ne_of_lt ha
    have hmlen : m < st.length := by
      by_contra hc
      rw [opOf, nodeAt, List.getD_eq_default st default (Nat.le_of_not_lt hc)]
        at hop
      exact Op.noConfusion hop
    have halen : a < st.length := lt_trans ha hmlen
    simp only [applyRule, localCoeff, hop]
    by_cases hva : v = a
    · subst hva
      rw [gradOf_updGrad_self st v _ halen]
      rw [if_pos rfl]
      ring
    · rw [gradOf_updGrad_ne st a v _ (fun he => hva he.symm)]
      simp [Ne.symm hva]
  | tanh a t =>
    have ha : a < m := hch a (by rw [hop]; simp [slots])
    have ham : a ≠ m := Nat.ne_of_lt ha
    have hmlen : m < st.length := by
      by_contra hc
      rw [opOf, nodeAt, List.getD_eq_default st default (Nat.le_of_not_lt hc)]
        at hop
      exact Op.noConfusion hop
    have halen : a < st.length := lt_trans ha hmlen
    simp only [applyRule, localCoeff, hop]
    by_cases hva : v = a
    · subst hva
      rw [gradOf_updGrad_self st v _ halen]
      rw [if_pos rfl]
    · rw [gradOf_updGrad_ne st a v _ (fun he => hva he.symm)]
      simp [Ne.symm hva]
  | relu a =>
    have ha : a < m := hch a (by rw [hop]; simp [slots])
    have ham : a ≠ m := Nat.ne_of_lt ha
    have hmlen : m < st.length := by
      by_contra hc
      rw [opOf, nodeAt, List.getD_eq_default st default (Nat.le_of_not_lt hc)]
        at hop
      exact Op.noConfusion hop
    have halen : a < st.length := lt_trans ha hmlen
    simp only [applyRule, localCoeff, hop]
    by_cases hva : v = a
    · subst hva
      rw [gradOf_updGrad_self st v _ halen]
      rw [if_pos rfl]
    · rw [gradOf_updGrad_ne st a v _ (fun he => hva he.symm)]
      simp [Ne.symm hva]

theorem localCoeff_frame (fp : ℚ → ℚ → ℚ) (st s : Store) (m v : Nat)
    (hdata : ∀ j, dataOf st j = dataOf s j)
    (hopf : ∀ j, opOf st j = opOf s j) :
    localCoeff fp st m v = localCoeff fp s m v := by
  unfold localCoeff
  rw [hopf m]
  cases opOf s m <;> simp [hdata]

theorem localCoeff_eq_zero (fp : ℚ → ℚ → ℚ) (s : Store) (m v : Nat)
    (h : v ∉ slots (opOf s m)) : localCoeff fp s m v = 0 := by
  cases hop : opOf s m with
  | leaf => simp [localCoeff, hop]
  | add a b =>
    rw [hop] at h
    simp [slots] at h
    have h1 : ¬ a = v := fun he => h.1 he.symm
    have h2 : ¬ b = v := fun he => h.2 he.symm
    simp [localCoeff, hop, h1, h2]
  | mul a b =>
    rw [hop] at h
    simp [slots] at h
    have h1 : ¬ a = v := fun he => h.1 he.symm
    have h2 : ¬ b = v := fun he => h.2 he.symm
    simp [localCoeff, hop, h1, h2]
  | pow a e =>
    rw [hop] at h
    simp [slots] at h
    have h1 : ¬ a = v := fun he => h he.symm
    simp [localCoeff, hop, h1]
  | log a =>
    rw [hop] at h
    simp [slots] at h
    have h1 : ¬ a = v := fun he => h he.symm
    simp [localCoeff, hop, h1]
  | tanh a t =>
    rw [hop] at h
    simp [slots] at h
    have h1 : ¬ a = v := fun he => h he.symm
    simp [localCoeff, hop, h1]
  | relu a =>
    rw [hop] at h
    simp [slots] at h
    have h1 : ¬ a = v := fun he => h he.symm
    simp [localCoeff, hop, h1]

theorem sum_map_filter_of_zero (l : List Nat) (f : Nat → ℚ) (p : Nat → Bool)
    (h : ∀ x ∈ l, p x = false → f x = 0) :
    (l.map f).sum = ((l.filter p).map f).sum := by
  induction l with
  | nil => rfl
  | cons a t ih =>
    have ht : ∀ x ∈ t, p x = false → f x = 0 :=
      fun x hx => h x (List.mem_cons_of_mem a hx)
    cases hp : p a with
    | true =>
      rw [List.filter_cons_of_pos (by rw [hp])]
      simp only [List.map_cons, List.sum_cons]
      rw [ih ht]
    | false =>
      rw [List.filter_cons_of_neg (by rw [hp]; simp)]
      simp only [List.map_cons, List.sum_cons]
      rw [h a (List.mem_cons_self a t) hp, ih ht]
      simp

/-- The contribution sum over any processed set `P` that contains all the
consumers of `v` inside the graph list `L` equals the adjoint recurrence
value `accGrad`. -/
theorem accGrad_eq (fp : ℚ → ℚ → ℚ) (s : Store) (root : Nat) (L : List Nat)
    (g0 : Nat → ℚ)
    (hwf : Wf s) (hLval : ∀ x ∈ L, x < s.length)
    (P : List Nat) (hPnd : P.Nodup) (hPsub : ∀ x ∈ P, x ∈ L)
    (v : Nat)
    (hPcompl : ∀ m' ∈ L, v ∈ slots (opOf s m') → m' ∈ P) :
    (if v = root then 1 else g0 v) +
      (P.map (fun m' =>
        localCoeff fp s m' v * accGrad fp s root L g0 m')).sum =
    accGrad fp s root L g0 v := by
  rw [accGrad]
  congr 1
  rw [Finset.sum_attach ((Finset.range s.length).filter
    (fun m => m ∈ L ∧ v ∈ slots (opOf s m) ∧ v < m))
    (fun m => localCoeff fp s m v * accGrad fp s root L g0 m)]
  rw [sum_map_filter_of_zero P _ (fun m' => decide (v ∈ slots (opOf s m')))
    (by
      intro x _ hx
      rw [localCoeff_eq_zero fp s x v (by simpa using hx)]
      ring)]
  rw [← List.sum_toFinset _ ((hPnd.filter _))]
  apply Finset.sum_congr
  · apply Finset.ext
    intro m
    simp only [List.mem_toFinset, List.mem_filter, Finset.mem_filter,
      Finset.mem_range, decide_eq_true_eq]
    constructor
    · rintro ⟨hmP, hms⟩
      have hmL : m ∈ L := hPsub m hmP
      have hmlen : m < s.length := hLval m hmL
      exact ⟨hmlen, hmL, hms, hwf m hmlen v hms⟩
    · rintro ⟨hmlen, hmL, hms, hvm⟩
      exact ⟨hPcompl m hmL hms, hms⟩
  · intro x _
    rfl

/-- The backward pass computes exactly the adjoint recurrence: for every
node, its final gradient is `accGrad` — the root's stale gradient replaced
by `1`, every other node's initial gradient plus the contributions of all
of its executed consumers, each weighted by the consumer's own final
gradient. -/
theorem backward_exec_grads (fp : ℚ → ℚ → ℚ) (s : Store) (root : Nat)
    (hwf : Wf s) (hroot : root < s.length) :
    ∀ v, gradOf (backward fp s root) v =
      accGrad fp s root (topoSort s root) (gradOf s) v := by
  obtain ⟨hnd, hval, hrmem, hcl⟩ := topoSort_facts s root hwf hroot
  have aux : ∀ (E P : List Nat) (st : Store),
      (topoSort s root).reverse = P ++ E →
      (∀ j, dataOf st j = dataOf s j) →
      (∀ j, opOf st j = opOf s j) →
      (∀ v, gradOf st v = (if v = root then 1 else gradOf s v) +
        (P.map (fun m' => localCoeff fp s m' v *
          accGrad fp s root (topoSort s root) (gradOf s) m')).sum) →
      ∀ v, gradOf (E.foldl (applyRule fp) st) v =
        (if v = root then 1 else gradOf s v) +
        ((P ++ E).map (fun m' => localCoeff fp s m' v *
          accGrad fp s root (topoSort s root) (gradOf s) m')).sum := by
    intro E
    induction E with
    | nil =>
      intro P st hdec hdata hopf hinv v
      simpa using hinv v
    | cons m E' ihE =>
      intro P st hdec hdata hopf hinv v
      have hmL : m ∈ topoSort s root := by
        have h0 : m ∈ (topoSort s root).reverse := by
          rw [hdec]
          exact List.mem_append.mpr (Or.inr (List.mem_cons_self m E'))
        exact List.mem_reverse.mp h0
      have hmlen : m < s.length := (hval m hmL).2
      have hPnd : P.Nodup := by
        have h0 : ((topoSort s root).reverse).Nodup := List.nodup_reverse.mpr hnd
        rw [hdec] at h0
        exact (List.nodup_append.mp h0).1
      have hgradm : gradOf st m =
          accGrad fp s root (topoSort s root) (gradOf s) m := by
        rw [hinv m]
        exact accGrad_eq fp s root (topoSort s root) (gradOf s) hwf
          (fun x hx => (hval x hx).2) P hPnd
          (fun x hx => by
            have h0 : x ∈ (topoSort s root).reverse := by
              rw [hdec]
              exact List.mem_append.mpr (Or.inl hx)
            exact List.mem_reverse.mp h0)
          m
          (fun m' hm' hs => parents_processed s (topoSort s root) hwf hnd
            (fun x hx => (hval x hx).2) hcl P m E' hdec m' hm' hs)
      have happly : ∀ u, gradOf (applyRule fp st m) u =
          gradOf st u + localCoeff fp s m u * gradOf st m := by
        intro u
        rw [gradOf_applyRule fp st m (by
          intro c hc
          rw [hopf m] at hc
          exact hwf m hmlen c hc) u]
        rw [localCoeff_frame fp st s m u hdata hopf]
      have hdec' : (topoSort s root).reverse = (P ++ [m]) ++ E' := by
        rw [hdec]
        simp
      have hinv' : ∀ u, gradOf (applyRule fp st m) u =
          (if u = root then 1 else gradOf s u) +
          ((P ++ [m]).map (fun m' => localCoeff fp s m' u *
            accGrad fp s root (topoSort s root) (gradOf s) m')).sum := by
        intro u
        rw [happly u, hinv u, hgradm]
        simp only [List.map_append, List.sum_append, List.map_cons,
          List.sum_cons, List.map_nil, List.sum_nil]
        ring
      have hfr1 : ∀ j, dataOf (applyRule fp st m) j = dataOf s j := by
        intro j
        rw [dataOf_applyRule]
        exact hdata j
      have hfr2 : ∀ j, opOf (applyRule fp st m) j = opOf s j := by
        intro j
        rw [opOf_applyRule]
        exact hopf j
      have hres := ihE (P ++ [m]) (applyRule fp st m) hdec' hfr1 hfr2 hinv' v
      rw [List.foldl_cons, hres]
      congr 2
      simp

  intro v
  have hfr1 : ∀ j, dataOf (updGrad s root 1) j = dataOf s j := by
    intro j
    rw [dataOf_updGrad]
  have hfr2 : ∀ j, opOf (updGrad s root 1) j = opOf s j := by
    intro j
    rw [opOf_updGrad]
  have hinv0 : ∀ u, gradOf (updGrad s root 1) u =
      (if u = root then 1 else gradOf s u) +
      (([] : List Nat).map (fun m' => localCoeff fp s m' u *
        accGrad fp s root (topoSort s root) (gradOf s) m')).sum := by
    intro u
    by_cases hu : u = root
    · subst hu
      rw [gradOf_updGrad_self s u 1 hroot]
      simp
    · rw [gradOf_updGrad_ne s root u 1 (fun he => hu he.symm)]
      simp [hu]
  have hmain := aux ((topoSort s root).reverse) [] (updGrad s root 1)
    (by simp) hfr1 hfr2 hinv0 v
  have hback : backward fp s root =
      ((topoSort s root).reverse).foldl (applyRule fp) (updGrad s root 1) := rfl
  rw [hback, hmain]
  simp only [List.nil_append]
  exact accGrad_eq fp s root (topoSort s root) (gradOf s) hwf
    (fun x hx => (hval x hx).2) ((topoSort s root).reverse)
    (List.nodup_reverse.mpr hnd)
    (fun x hx => List.mem_reverse.mp hx)
    v
    (fun m' hm' _ => List.mem_reverse.mpr hm')

/-! Forward-mode tangents: unfolding and vanishing lemmas. -/

theorem reaches_trans (s : Store) {x y z : Nat} (h1 : Reaches s x y)
    (h2 : Reaches s y z) : Reaches s x z := by
  induction h2 with
  | refl => exact h1
  | step _ hc ih => exact Reaches.step ih hc

theorem opOf_oor (s : Store) (v : Nat) (h : ¬ v < s.length) :
    opOf s v = Op.leaf := by
  unfold opOf nodeAt
  rw [List.getD_eq_default s default (Nat.le_of_not_lt h)]
  rfl

theorem op_lt_length (s : Store) {v : Nat} {o : Op} (ho : opOf s v = o)
    (hno : o ≠ Op.leaf) : v < s.length := by
  by_contra hc
  rw [opOf_oor s v hc] at ho
  exact hno ho.symm

theorem tangent_self (fp : ℚ → ℚ → ℚ) (s : Store) (n : Nat) :
    tangent fp s n n = 1 := by
  rw [tangent]
  simp

theorem tangent_leaf (fp : ℚ → ℚ → ℚ) (s : Store) (n v : Nat) (hv : v ≠ n)
    (hop : opOf s v = Op.leaf) : tangent fp s n v = 0 := by
  rw [tangent]
  simp [hv, hop]

theorem tangent_add (fp : ℚ → ℚ → ℚ) (s : Store) (hwf : Wf s) (n v a b : Nat)
    (hv : v ≠ n) (hop : opOf s v = Op.add a b) :
    tangent fp s n v = tangent fp s n a + tangent fp s n b := by
  have hvlen : v < s.length := op_lt_length s hop (by simp)
  have ha : a < v := hwf v hvlen a (by rw [hop]; simp [slots])
  have hb : b < v := hwf v hvlen b (by rw [hop]; simp [slots])
  rw [tangent]
  simp [hv, hop, ha, hb]

theorem tangent_mul (fp : ℚ → ℚ → ℚ) (s : Store) (hwf : Wf s) (n v a b : Nat)
    (hv : v ≠ n) (hop : opOf s v = Op.mul a b) :
    tangent fp s n v =
      tangent fp s n a * dataOf s b + dataOf s a * tangent fp s n b := by
  have hvlen : v < s.length := op_lt_length s hop (by simp)
  have ha : a < v := hwf v hvlen a (by rw [hop]; simp [slots])
  have hb : b < v := hwf v hvlen b (by rw [hop]; simp [slots])
  rw [tangent]
  simp [hv, hop, ha, hb]

theorem tangent_pow (fp : ℚ → ℚ → ℚ) (s : Store) (hwf : Wf s) (n v a : Nat)
    (e : ℚ) (hv : v ≠ n) (hop : opOf s v = Op.pow a e) :
    tangent fp s n v = e * fp (dataOf s a) (e - 1) * tangent fp s n a := by
  have hvlen : v < s.length := op_lt_length s hop (by simp)
  have ha : a < v := hwf v hvlen a (by rw [hop]; simp [slots])
  rw [tangent]
  simp [hv, hop, ha]

theorem tangent_log (fp : ℚ → ℚ → ℚ) (s : Store) (hwf : Wf s) (n v a : Nat)
    (hv : v ≠ n) (hop : opOf s v = Op.log a) :
    tangent fp s n v = (1 / dataOf s a) * tangent fp s n a := by
  have hvlen : v < s.length := op_lt_length s hop (by simp)
  have ha : a < v := hwf v hvlen a (by rw [hop]; simp [slots])
  rw [tangent]
  simp [hv, hop, ha]

theorem tangent_tanh (fp : ℚ → ℚ → ℚ) (s : Store) (hwf : Wf s) (n v a : Nat)
    (t : ℚ) (hv : v ≠ n) (hop : opOf s v = Op.tanh a t) :
    tangent fp s n v = (1 - t ^ 2) * tangent fp s n a := by
  have hvlen : v < s.length := op_lt_length s hop (by simp)
  have ha : a < v := hwf v hvlen a (by rw [hop]; simp [slots])
  rw [tangent]
  simp [hv, hop, ha]

theorem tangent_relu (fp : ℚ → ℚ → ℚ) (s : Store) (hwf : Wf s) (n v a : Nat)
    (hv : v ≠ n) (hop : opOf s v = Op.relu a) :
    tangent fp s n v =
      (if 0 < dataOf s a then (1 : ℚ) else 0) * tangent fp s n a := by
  have hvlen : v < s.length := op_lt_length s hop (by simp)
  have ha : a < v := hwf v hvlen a (by rw [hop]; simp [slots])
  rw [tangent]
  simp [hv, hop, ha]

/-- A node strictly below the cut has tangent `0` (its value cannot use
the cut node's value: edges only point to smaller indices). -/
theorem tangent_below (fp : ℚ → ℚ → ℚ) (s : Store) :
    ∀ v n, v < n → tangent fp s n v = 0 := by
  intro v
  induction v using Nat.strong_induction_on with
  | _ v ihv =>
    intro n hvn
    have hv : v ≠ n := Nat.ne_of_lt hvn
    rw [tangent]
    simp only [hv, if_false]
    cases opOf s v with
    | leaf => rfl
    | add a b =>
      by_cases ha : a < v
      · by_cases hb : b < v
        · simp [ha, hb, ihv a ha n (lt_trans ha hvn),
            ihv b hb n (lt_trans hb hvn)]
        · simp [ha, hb, ihv a ha n (lt_trans ha hvn)]
      · by_cases hb : b < v
        · simp [ha, hb, ihv b hb n (lt_trans hb hvn)]
        · simp [ha, hb]
    | mul a b =>
      by_cases ha : a < v
      · by_cases hb : b < v
        · simp [ha, hb, ihv a ha n (lt_trans ha hvn),
            ihv b hb n (lt_trans hb hvn)]
        · simp [ha, hb, ihv a ha n (lt_trans ha hvn)]
      · by_cases hb : b < v
        · simp [ha, hb, ihv b hb n (lt_trans hb hvn)]
        · simp [ha, hb]
    | pow a e =>
      by_cases ha : a < v
      · simp [ha, ihv a ha n (lt_trans ha hvn)]
      · simp [ha]
    | log a =>
      by_cases ha : a < v
      · simp [ha, ihv a ha n (lt_trans ha hvn)]
      · simp [ha]
    | tanh a t =>
      by_cases ha : a < v
      · simp [ha, ihv a ha n (lt_trans ha hvn)]
      · simp [ha]
    | relu a =>
      by_cases ha : a < v
      · simp [ha, ihv a ha n (lt_trans ha hvn)]
      · simp [ha]

/-- A node that does not reach the cut node has tangent `0`. -/
theorem tangent_unreach (fp : ℚ → ℚ → ℚ) (s : Store) :
    ∀ v n, ¬ Reaches s v n → tangent fp s n v = 0 := by
  intro v
  induction v using Nat.strong_induction_on with
  | _ v ihv =>
    intro n hnr
    have hv : v ≠ n := fun he => hnr (he ▸ Reaches.refl)
    have hch : ∀ c, c ∈ slots (opOf s v) → ¬ Reaches s c n := by
      intro c hc hr
      exact hnr (reaches_trans s (Reaches.step Reaches.refl hc) hr)
    rw [tangent]
    simp only [hv, if_false]
    cases hop : opOf s v with
    | leaf => rfl
    | add a b =>
      have hna : ¬ Reaches s a n := hch a (by rw [hop]; simp [slots])
      have hnb : ¬ Reaches s b n := hch b (by rw [hop]; simp [slots])
      by_cases ha : a < v
      · by_cases hb : b < v
        · simp [ha, hb, ihv a ha n hna, ihv b hb n hnb]
        · simp [ha, hb, ihv a ha n hna]
      · by_cases hb : b < v
        · simp [ha, hb, ihv b hb n hnb]
        · simp [ha, hb]
    | mul a b =>
      have hna : ¬ Reaches s a n := hch a (by rw [hop]; simp [slots])
      have hnb : ¬ Reaches s b n := hch b (by rw [hop]; simp [slots])
      by_cases ha : a < v
      · by_cases hb : b < v
        · simp [ha, hb, ihv a ha n hna, ihv b hb n hnb]
        · simp [ha, hb, ihv a ha n hna]
      · by_cases hb : b < v
        · simp [ha, hb, ihv b hb n hnb]
        · simp [ha, hb]
    | pow a e =>
      have hna : ¬ Reaches s a n := hch a (by rw [hop]; simp [slots])
      by_cases ha : a < v
      · simp [ha, ihv a ha n hna]
      · simp [ha]
    | log a =>
      have hna : ¬ Reaches s a n := hch a (by rw [hop]; simp [slots])
      by_cases ha : a < v
      · simp [ha, ihv a ha n hna]
      · simp [ha]
    | tanh a t =>
      have hna : ¬ Reaches s a n := hch a (by rw [hop]; simp [slots])
      by_cases ha : a < v
      · simp [ha, ihv a ha n hna]
      · simp [ha]
    | relu a =>
      have hna : ¬ Reaches s a n := hch a (by rw [hop]; simp [slots])
      by_cases ha : a < v
      · simp [ha, ihv a ha n hna]
      · simp [ha]

/-- Shared step of the first-edge decomposition for the unary operations:
when node `a`'s operation has the single operand `b` and propagates the
local factor `C`, the decomposition identity at `a` (for a cut `n ≠ a`)
follows from the identity at `b`. -/
theorem tangent_decomp_unary (fp : ℚ → ℚ → ℚ) (s : Store) {a b : Nat}
    (n : Nat) (C : ℚ) (halen : a < s.length) (hba : b < a)
    (hsl : slots (opOf s a) = [b])
    (hlcA : localCoeff fp s a n = if b = n then C else 0)
    (htan : ∀ m, m ≠ a → tangent fp s m a = C * tangent fp s m b)
    (hna : n ≠ a)
    (hIH : tangent fp s n b =
      (if n = b then 1 else 0) +
      ∑ m ∈ (Finset.range s.length).filter (fun m => n ∈ slots (opOf s m)),
        localCoeff fp s m n * tangent fp s m b) :
    tangent fp s n a =
      ∑ m ∈ (Finset.range s.length).filter (fun m => n ∈ slots (opOf s m)),
        localCoeff fp s m n * tangent fp s m a := by
  rw [htan n hna]
  have huni : ∀ m ∈ (Finset.range s.length).filter
      (fun m => n ∈ slots (opOf s m)),
      tangent fp s m a = (if a = m then 1 else 0) + C * tangent fp s m b := by
    intro m _
    by_cases hma : a = m
    · subst hma
      rw [tangent_self, tangent_below fp s b a hba]
      simp
    · rw [htan m (fun he => hma he.symm)]
      simp [hma]
  have hexp : ∑ m ∈ (Finset.range s.length).filter
      (fun m => n ∈ slots (opOf s m)),
      localCoeff fp s m n * tangent fp s m a =
      (∑ m ∈ (Finset.range s.length).filter
        (fun m => n ∈ slots (opOf s m)),
        localCoeff fp s m n * (if a = m then 1 else 0)) +
      (∑ m ∈ (Finset.range s.length).filter
        (fun m => n ∈ slots (opOf s m)),
        localCoeff fp s m n * (C * tangent fp s m b)) := by
    rw [← Finset.sum_add_distrib]
    exact Finset.sum_congr rfl (fun m hm => by rw [huni m hm]; ring)
  have hIb : ∑ m ∈ (Finset.range s.length).filter
      (fun m => n ∈ slots (opOf s m)),
      localCoeff fp s m n * tangent fp s m b =
      tangent fp s n b - (if n = b then 1 else 0) := by
    rw [hIH]
    ring
  have hEb : ∑ m ∈ (Finset.range s.length).filter
      (fun m => n ∈ slots (opOf s m)),
      localCoeff fp s m n * (C * tangent fp s m b) =
      C * (tangent fp s n b - (if n = b then 1 else 0)) := by
    rw [← hIb, Finset.mul_sum]
    exact Finset.sum_congr rfl (fun m _ => by ring)
  have hind : ∑ m ∈ (Finset.range s.length).filter
      (fun m => n ∈ slots (opOf s m)),
      localCoeff fp s m n * (if a = m then 1 else 0) =
      (if n = b then C else 0) := by
    have h0 : ∀ m ∈ (Finset.range s.length).filter
        (fun m => n ∈ slots (opOf s m)),
        localCoeff fp s m n * (if a = m then 1 else 0) =
        (if a = m then localCoeff fp s m n else 0) := by
      intro m _
      by_cases hma : a = m <;> simp [hma]
    rw [Finset.sum_congr rfl h0, Finset.sum_ite_eq]
    by_cases hb : n = b
    · have haF : a ∈ (Finset.range s.length).filter
          (fun m => n ∈ slots (opOf s m)) := by
        simp only [Finset.mem_filter, Finset.mem_range, hsl]
        exact ⟨halen, by simp [hb]⟩
      rw [if_pos haF, hlcA, if_pos hb.symm, if_pos hb]
    · have haF : a ∉ (Finset.range s.length).filter
          (fun m => n ∈ slots (opOf s m)) := by
        simp only [Finset.mem_filter, Finset.mem_range, hsl]
        rintro ⟨-, hmem⟩
        simp only [List.mem_cons, List.not_mem_nil, or_false] at hmem
        exact hb hmem
      rw [if_neg haF, if_neg hb]
  rw [hexp, hind, hEb]
  split_ifs <;> ring

/-- First-edge decomposition of the tangent: the derivative of a node `a`
with respect to a cut at `n` is the indicator of `n = a` plus, over every
consumer `m` of `n`, the local factor of the edge `m → n` times the
derivative of `a` with respect to a cut at `m`.  This is the chain rule
along the first edge of every path from `n` up to `a`, and the bridge
between the reverse accumulation and the forward tangent. -/
theorem tangent_decomp (fp : ℚ → ℚ → ℚ) (s : Store) (hwf : Wf s) :
    ∀ a n, tangent fp s n a =
      (if n = a then 1 else 0) +
      ∑ m ∈ (Finset.range s.length).filter (fun m => n ∈ slots (opOf s m)),
        localCoeff fp s m n * tangent fp s m a := by
  intro a
  induction a using Nat.strong_induction_on with
  | _ a iha =>
    intro n
    by_cases hna : n = a
    · subst hna
      rw [tangent_self]
      rw [Finset.sum_eq_zero, if_pos rfl]
      · norm_num
      · intro m hm
        simp only [Finset.mem_filter, Finset.mem_range] at hm
        rw [tangent_below fp s n m (hwf m hm.1 n hm.2)]
        ring
    · rw [if_neg hna]
      cases hop : opOf s a with
      | leaf =>
        rw [tangent_leaf fp s n a (fun he => hna he.symm) hop]
        rw [Finset.sum_eq_zero]
        · norm_num
        · intro m hm
          simp only [Finset.mem_filter, Finset.mem_range] at hm
          by_cases hma : m = a
          · subst hma
            have : localCoeff fp s m n = 0 := by
              simp [localCoeff, hop]
            rw [this]
            ring
          · rw [tangent_leaf fp s m a (fun he => hma he.symm) hop]
            ring
      | add b c =>
        have halen : a < s.length := op_lt_length s hop (by simp)
        have hba : b < a := hwf a halen b (by rw [hop]; simp [slots])
        have hca : c < a := hwf a halen c (by rw [hop]; simp [slots])
        rw [tangent_add fp s hwf n a b c (fun he => hna he.symm) hop]
        have huni : ∀ m ∈ (Finset.range s.length).filter
            (fun m => n ∈ slots (opOf s m)),
            tangent fp s m a =
              (if a = m then 1 else 0) + (tangent fp s m b + tangent fp s m c) := by
          intro m hm
          by_cases hma : a = m
          · subst hma
            rw [tangent_self, tangent_below fp s b a hba, tangent_below fp s c a hca]
            simp
          · rw [tangent_add fp s hwf m a b c hma hop]
            simp [hma]
        have hexp : ∑ m ∈ (Finset.range s.length).filter
            (fun m => n ∈ slots (opOf s m)),
            localCoeff fp s m n * tangent fp s m a =
            (∑ m ∈ (Finset.range s.length).filter
              (fun m => n ∈ slots (opOf s m)),
              localCoeff fp s m n * (if a = m then 1 else 0)) +
            ((∑ m ∈ (Finset.range s.length).filter
              (fun m => n ∈ slots (opOf s m)),
              localCoeff fp s m n * tangent fp s m b) +
             (∑ m ∈ (Finset.range s.length).filter
              (fun m => n ∈ slots (opOf s m)),
              localCoeff fp s m n * tangent fp s m c)) := by
          rw [← Finset.sum_add_distrib, ← Finset.sum_add_distrib]
          exact Finset.sum_congr rfl (fun m hm => by rw [huni m hm]; ring)
        have hsb := iha b hba n
        have hsc := iha c hca n
        have hEb : ∑ m ∈ (Finset.range s.length).filter
            (fun m => n ∈ slots (opOf s m)),
            localCoeff fp s m n * tangent fp s m b =
            tangent fp s n b - (if n = b then 1 else 0) := by
          rw [hsb]
          ring
        have hEc : ∑ m ∈ (Finset.range s.length).filter
            (fun m => n ∈ slots (opOf s m)),
            localCoeff fp s m n * tangent fp s m c =
            tangent fp s n c - (if n = c then 1 else 0) := by
          rw [hsc]
          ring
        have hind : ∑ m ∈ (Finset.range s.length).filter
            (fun m => n ∈ slots (opOf s m)),
            localCoeff fp s m n * (if a = m then 1 else 0) =
            (if n = b then 1 else 0) + (if n = c then 1 else 0) := by
          have h0 : ∀ m ∈ (Finset.range s.length).filter
              (fun m => n ∈ slots (opOf s m)),
              localCoeff fp s m n * (if a = m then 1 else 0) =
              (if a = m then localCoeff fp s m n else 0) := by
            intro m _
            by_cases hma : a = m <;> simp [hma]
          rw [Finset.sum_congr rfl h0, Finset.sum_ite_eq]
          by_cases hb : n = b
          · have haF : a ∈ (Finset.range s.length).filter
                (fun m => n ∈ slots (opOf s m)) := by
              simp only [Finset.mem_filter, Finset.mem_range, hop, slots]
              exact ⟨halen, by simp [hb]⟩
            rw [if_pos haF]
            simp only [localCoeff, hop]
            by_cases hc : n = c
            · rw [if_pos hb.symm, if_pos hc.symm, if_pos hb, if_pos hc]
            · rw [if_pos hb.symm, if_neg (fun he => hc he.symm), if_pos hb,
                if_neg hc]
          · by_cases hc : n = c
            · have haF : a ∈ (Finset.range s.length).filter
                  (fun m => n ∈ slots (opOf s m)) := by
                simp only [Finset.mem_filter, Finset.mem_range, hop, slots]
                exact ⟨halen, by simp [hc]⟩
              rw [if_pos haF]
              simp only [localCoeff, hop]
              rw [if_neg (fun he => hb he.symm), if_pos hc.symm, if_neg hb,
                if_pos hc]
            · have haF : a ∉ (Finset.range s.length).filter
                  (fun m => n ∈ slots (opOf s m)) := by
                simp only [Finset.mem_filter, Finset.mem_range, hop, slots]
                rintro ⟨-, hmem⟩
                simp only [List.mem_cons, List.not_mem_nil, or_false] at hmem
                rcases hmem with h' | h'
                · exact hb h'
                · exact hc h'
              rw [if_neg haF, if_neg hb, if_neg hc]
              norm_num
        rw [hexp, hind, hEb, hEc]
        ring
      | mul b c =>
        have halen : a < s.length := op_lt_length s hop (by simp)
        have hba : b < a := hwf a halen b (by rw [hop]; simp [slots])
        have hca : c < a := hwf a halen c (by rw [hop]; simp [slots])
        rw [tangent_mul fp s hwf n a b c (fun he => hna he.symm) hop]
        have huni : ∀ m ∈ (Finset.range s.length).filter
            (fun m => n ∈ slots (opOf s m)),
            tangent fp s m a =
              (if a = m then 1 else 0) +
                (tangent fp s m b * dataOf s c + dataOf s b * tangent fp s m c) := by
          intro m hm
          by_cases hma : a = m
          · subst hma
            rw [tangent_self, tangent_below fp s b a hba, tangent_below fp s c a hca]
            simp
          · rw [tangent_mul fp s hwf m a b c hma hop]
            simp [hma]
        have hexp : ∑ m ∈ (Finset.range s.length).filter
            (fun m => n ∈ slots (opOf s m)),
            localCoeff fp s m n * tangent fp s m a =
            (∑ m ∈ (Finset.range s.length).filter
              (fun m => n ∈ slots (opOf s m)),
              localCoeff fp s m n * (if a = m then 1 else 0)) +
            ((∑ m ∈ (Finset.range s.length).filter
              (fun m => n ∈ slots (opOf s m)),
              localCoeff fp s m n * (tangent fp s m b * dataOf s c)) +
             (∑ m ∈ (Finset.range s.length).filter
              (fun m => n ∈ slots (opOf s m)),
              localCoeff fp s m n * (dataOf s b * tangent fp s m c))) := by
          rw [← Finset.sum_add_distrib, ← Finset.sum_add_distrib]
          exact Finset.sum_congr rfl (fun m hm => by rw [huni m hm]; ring)
        have hsb := iha b hba n
        have hsc := iha c hca n
        have hIb : ∑ m ∈ (Finset.range s.length).filter
            (fun m => n ∈ slots (opOf s m)),
            localCoeff fp s m n * tangent fp s m b =
            tangent fp s n b - (if n = b then 1 else 0) := by
          rw [hsb]
          ring
        have hIc : ∑ m ∈ (Finset.range s.length).filter
            (fun m => n ∈ slots (opOf s m)),
            localCoeff fp s m n * tangent fp s m c =
            tangent fp s n c - (if n = c then 1 else 0) := by
          rw [hsc]
          ring
        have hEb : ∑ m ∈ (Finset.range s.length).filter
            (fun m => n ∈ slots (opOf s m)),
            localCoeff fp s m n * (tangent fp s m b * dataOf s c) =
            (tangent fp s n b - (if n = b then 1 else 0)) * dataOf s c := by
          rw [← hIb, Finset.sum_mul]
          exact Finset.sum_congr rfl (fun m _ => by ring)
        have hEc : ∑ m ∈ (Finset.range s.length).filter
            (fun m => n ∈ slots (opOf s m)),
            localCoeff fp s m n * (dataOf s b * tangent fp s m c) =
            dataOf s b * (tangent fp s n c - (if n = c then 1 else 0)) := by
          rw [← hIc, Finset.mul_sum]
          exact Finset.sum_congr rfl (fun m _ => by ring)
        have hind : ∑ m ∈ (Finset.range s.length).filter
            (fun m => n ∈ slots (opOf s m)),
            localCoeff fp s m n * (if a = m then 1 else 0) =
            (if n = b then 1 else 0) * dataOf s c +
              dataOf s b * (if n = c then 1 else 0) := by
          have h0 : ∀ m ∈ (Finset.range s.length).filter
              (fun m => n ∈ slots (opOf s m)),
              localCoeff fp s m n * (if a = m then 1 else 0) =
              (if a = m then localCoeff fp s m n else 0) := by
            intro m _
            by_cases hma : a = m <;> simp [hma]
          rw [Finset.sum_congr rfl h0, Finset.sum_ite_eq]
          by_cases hb : n = b
          · have haF : a ∈ (Finset.range s.length).filter
                (fun m => n ∈ slots (opOf s m)) := by
              simp only [Finset.mem_filter, Finset.mem_range, hop, slots]
              exact ⟨halen, by simp [hb]⟩
            rw [if_pos haF]
            simp only [localCoeff, hop]
            by_cases hc : n = c
            · rw [if_pos hb.symm, if_pos hc.symm, if_pos hb, if_pos hc]
              ring
            · rw [if_pos hb.symm, if_neg (fun he => hc he.symm), if_pos hb,
                if_neg hc]
              ring
          · by_cases hc : n = c
            · have haF : a ∈ (Finset.range s.length).filter
                  (fun m => n ∈ slots (opOf s m)) := by
                simp only [Finset.mem_filter, Finset.mem_range, hop, slots]
                exact ⟨halen, by simp [hc]⟩
              rw [if_pos haF]
              simp only [localCoeff, hop]
              rw [if_neg (fun he => hb he.symm), if_pos hc.symm, if_neg hb,
                if_pos hc]
              ring
            · have haF : a ∉ (Finset.range s.length).filter
                  (fun m => n ∈ slots (opOf s m)) := by
                simp only [Finset.mem_filter, Finset.mem_range, hop, slots]
                rintro ⟨-, hmem⟩
                simp only [List.mem_cons, List.not_mem_nil, or_false] at hmem
                rcases hmem with h' | h'
                · exact hb h'
                · exact hc h'
              rw [if_neg haF, if_neg hb, if_neg hc]
              ring
        rw [hexp, hind, hEb, hEc]
        ring
      | pow b e =>
        have halen : a < s.length := op_lt_length s hop (by simp)
        have hba : b < a := hwf a halen b (by rw [hop]; simp [slots])
        rw [tangent_decomp_unary fp s n (e * fp (dataOf s b) (e - 1)) halen
          hba (by simp [hop, slots]) (by simp [localCoeff, hop])
          (fun m hm => tangent_pow fp s hwf m a b e (Ne.symm hm) hop)
          hna (iha b hba n), zero_add]
      | log b =>
        have halen : a < s.length := op_lt_length s hop (by simp)
        have hba : b < a := hwf a halen b (by rw [hop]; simp [slots])
        rw [tangent_decomp_unary fp s n (1 / dataOf s b) halen
          hba (by simp [hop, slots]) (by simp [localCoeff, hop])
          (fun m hm => tangent_log fp s hwf m a b (Ne.symm hm) hop)
          hna (iha b hba n), zero_add]
      | tanh b t =>
        have halen : a < s.length := op_lt_length s hop (by simp)
        have hba : b < a := hwf a halen b (by rw [hop]; simp [slots])
        rw [tangent_decomp_unary fp s n (1 - t ^ 2) halen
          hba (by simp [hop, slots]) (by simp [localCoeff, hop])
          (fun m hm => tangent_tanh fp s hwf m a b t (Ne.symm hm) hop)
          hna (iha b hba n), zero_add]
      | relu b =>
        have halen : a < s.length := op_lt_length s hop (by simp)
        have hba : b < a := hwf a halen b (by rw [hop]; simp [slots])
        rw [tangent_decomp_unary fp s n
          (if 0 < dataOf s b then (1 : ℚ) else 0) halen
          hba (by simp [hop, slots]) (by simp [localCoeff, hop])
          (fun m hm => tangent_relu fp s hwf m a b (Ne.symm hm) hop)
          hna (iha b hba n), zero_add]

/-- Above a threshold `N` below which no stale gradients exist, the
adjoint recurrence value equals the true tangent of the root with respect
to the node: reverse accumulation computes forward-mode derivatives. -/
theorem accGrad_tangent_ge (fp : ℚ → ℚ → ℚ) (s : Store) (root : Nat)
    (hwf : Wf s) (hroot : root < s.length) (N : Nat)
    (hzero : ∀ m, N ≤ m → m ≠ root → gradOf s m = 0) :
    ∀ m, N ≤ m → accGrad fp s root (topoSort s root) (gradOf s) m =
      tangent fp s m root := by
  obtain ⟨hnd, hval, hrmem, hcl⟩ := topoSort_facts s root hwf hroot
  have hoor : ∀ m, N ≤ m → ¬ m < s.length →
      accGrad fp s root (topoSort s root) (gradOf s) m = tangent fp s m root := by
    intro m hNm hmlen
    have hmroot : m ≠ root := fun he => hmlen (he ▸ hroot)
    have hrm : root < m := lt_of_lt_of_le hroot (Nat.le_of_not_lt hmlen)
    rw [accGrad, tangent_below fp s root m hrm]
    rw [Finset.sum_attach _ (fun x => localCoeff fp s x m *
      accGrad fp s root (topoSort s root) (gradOf s) x)]
    rw [Finset.sum_eq_zero]
    · rw [if_neg hmroot, hzero m hNm hmroot]
      ring
    · intro x hx
      simp only [Finset.mem_filter, Finset.mem_range] at hx
      exact absurd (lt_trans hx.2.2.2 hx.1) hmlen
  have main : ∀ k, ∀ m, s.length - m ≤ k → N ≤ m →
      accGrad fp s root (topoSort s root) (gradOf s) m = tangent fp s m root := by
    intro k
    induction k with
    | zero =>
      intro m hk hNm
      exact hoor m hNm (by omega)
    | succ k ihk =>
      intro m hk hNm
      by_cases hmlen : m < s.length
      · rw [accGrad]
        rw [Finset.sum_attach _ (fun x => localCoeff fp s x m *
          accGrad fp s root (topoSort s root) (gradOf s) x)]
        rw [Finset.sum_congr rfl (fun x hx => by
          simp only [Finset.mem_filter, Finset.mem_range] at hx
          rw [ihk x (by omega) (by omega)])]
        rw [tangent_decomp fp s hwf root m]
        have hinit : (if m = root then (1 : ℚ) else gradOf s m) =
            (if m = root then (1 : ℚ) else 0) := by
          by_cases hmr : m = root
          · rw [if_pos hmr, if_pos hmr]
          · rw [if_neg hmr, if_neg hmr, hzero m hNm hmr]
        rw [hinit]
        congr 1
        apply Finset.sum_subset
        · intro x hx
          simp only [Finset.mem_filter, Finset.mem_range] at hx ⊢
          exact ⟨hx.1, hx.2.2.1⟩
        · intro x hx hnx
          simp only [Finset.mem_filter, Finset.mem_range] at hx hnx
          have hxL : x ∉ topoSort s root := by
            intro hc
            exact hnx ⟨hx.1, hc, hx.2, hwf x hx.1 m hx.2⟩
          have hnr : ¬ Reaches s root x :=
            fun hc => hxL (mem_topo_of_reaches s root hwf hroot x hc)
          rw [tangent_unreach fp s root x hnr]
          ring
      · exact hoor m hNm hmlen
  intro m hNm
  exact main (s.length - m) m (le_refl _) hNm

/-! The cut function over the reals: its value at the current data and
its derivative. -/

theorem consistent_add (s : Store) (hcons : Consistent s) {v a b : Nat}
    (hop : opOf s v = Op.add a b) :
    dataOf s v = dataOf s a + dataOf s b := by
  have hvlen : v < s.length := op_lt_length s hop (by simp)
  have h := hcons v hvlen
  simp only [consB, hop, decide_eq_true_eq] at h
  exact h

theorem consistent_mul (s : Store) (hcons : Consistent s) {v a b : Nat}
    (hop : opOf s v = Op.mul a b) :
    dataOf s v = dataOf s a * dataOf s b := by
  have hvlen : v < s.length := op_lt_length s hop (by simp)
  have h := hcons v hvlen
  simp only [consB, hop, decide_eq_true_eq] at h
  exact h

/-- In the polynomial fragment, the exponent of a power node is a
non-negative integer. -/
theorem polyFrag_pow (s : Store) (hfr : PolyFrag s) {v a : Nat} {e : ℚ}
    (hop : opOf s v = Op.pow a e) : ∃ p : Nat, e = (p : ℚ) := by
  have hvlen : v < s.length := op_lt_length s hop (by simp)
  have h := hfr v hvlen
  simp only [polyB, hop] at h
  have h2 : e.den = 1 ∧ 0 ≤ e.num := by simpa using h
  refine ⟨e.num.toNat, ?_⟩
  have h4 : (e.num : ℚ) = e := by
    have h5 := Rat.num_div_den e
    rw [h2.1] at h5
    simpa using h5
  have h3 : ((e.num.toNat : Nat) : ℤ) = e.num := Int.toNat_of_nonneg h2.2
  rw [← h4]
  exact_mod_cast h3.symm

/-- A power routine that is exact on natural-number exponents computes the
closure's local factor `e * data ** (e - 1)` as the algebraic
`p * data ^ (p - 1)`. -/
theorem pow_coeff_eq (fp : ℚ → ℚ → ℚ)
    (hfp : ∀ (b : ℚ) (p : Nat), fp b (p : ℚ) = b ^ p) (d : ℚ) (p : Nat) :
    (p : ℚ) * fp d ((p : ℚ) - 1) = (p : ℚ) * d ^ (p - 1) := by
  cases p with
  | zero => simp
  | succ q =>
    have h1 : ((q + 1 : Nat) : ℚ) - 1 = ((q : Nat) : ℚ) := by
      push_cast
      ring
    rw [h1, hfp d q]
    simp

theorem consistent_pow (s : Store) (hcons : Consistent s) {v a : Nat}
    {e : ℚ} (p : Nat) (hop : opOf s v = Op.pow a e) (he : e = (p : ℚ)) :
    dataOf s v = dataOf s a ^ p := by
  have hvlen : v < s.length := op_lt_length s hop (by simp)
  have h := hcons v hvlen
  subst he
  simp only [consB, hop] at h
  have hc : ((p : ℚ)).den = 1 ∧ 0 ≤ ((p : ℚ)).num := by
    constructor
    · simp
    · simp
  rw [if_pos hc] at h
  have h2 : dataOf s v = dataOf s a ^ ((p : ℚ)).num.toNat := by
    simpa using h
  rw [h2]
  congr 1

/-- Evaluating the cut function at the cut node's current data re-computes
every node's current data (the consistency of the stored forward values,
on the polynomial fragment). -/
theorem evalCutR_at_data (s : Store) (hwf : Wf s) (hfrag : PolyFrag s)
    (hcons : Consistent s) (n : Nat) :
    ∀ v, evalCutR s n v ((dataOf s n : ℚ) : ℝ) = ((dataOf s v : ℚ) : ℝ) := by
  intro v
  induction v using Nat.strong_induction_on with
  | _ v ihv =>
    by_cases hvn : v = n
    · subst hvn
      rw [evalCutR]
      simp
    · rw [evalCutR]
      simp only [hvn, if_false]
      cases hop : opOf s v with
      | leaf => rfl
      | add a b =>
        have hvlen : v < s.length := op_lt_length s hop (by simp)
        have ha : a < v := hwf v hvlen a (by rw [hop]; simp [slots])
        have hb : b < v := hwf v hvlen b (by rw [hop]; simp [slots])
        rw [consistent_add s hcons hop]
        simp only [ha, hb, dif_pos, ihv a ha, ihv b hb]
        push_cast
        ring
      | mul a b =>
        have hvlen : v < s.length := op_lt_length s hop (by simp)
        have ha : a < v := hwf v hvlen a (by rw [hop]; simp [slots])
        have hb : b < v := hwf v hvlen b (by rw [hop]; simp [slots])
        rw [consistent_mul s hcons hop]
        simp only [ha, hb, dif_pos, ihv a ha, ihv b hb]
        push_cast
        ring
      | pow a e =>
        have hvlen : v < s.length := op_lt_length s hop (by simp)
        have ha : a < v := hwf v hvlen a (by rw [hop]; simp [slots])
        obtain ⟨p, he⟩ := polyFrag_pow s hfrag hop
        rw [consistent_pow s hcons p hop he]
        subst he
        simp only [ha, dif_pos, ihv a ha]
        rw [show (((p : ℚ) : ℚ) : ℝ) = ((p : Nat) : ℝ) by push_cast; ring]
        rw [Real.rpow_natCast]
        push_cast
        ring
      | log a =>
        have hvlen : v < s.length := op_lt_length s hop (by simp)
        have h := hfrag v hvlen
        simp [polyB, hop] at h
      | tanh a t =>
        have hvlen : v < s.length := op_lt_length s hop (by simp)
        have h := hfrag v hvlen
        simp [polyB, hop] at h
      | relu a =>
        have hvlen : v < s.length := op_lt_length s hop (by simp)
        have h := hfrag v hvlen
        simp [polyB, hop] at h

/-- The cut function is differentiable at the current data of the cut
node, with derivative the forward-mode tangent: structural chain rule
over the graph, on the polynomial fragment, for any power routine exact
on natural-number exponents. -/
theorem evalCutR_hasDerivAt (fp : ℚ → ℚ → ℚ) (s : Store) (hwf : Wf s)
    (hfrag : PolyFrag s) (hcons : Consistent s)
    (hfp : ∀ (b : ℚ) (p : Nat), fp b (p : ℚ) = b ^ p) (n : Nat) :
    ∀ v, HasDerivAt (fun t => evalCutR s n v t)
      ((tangent fp s n v : ℚ) : ℝ) ((dataOf s n : ℚ) : ℝ) := by
  intro v
  induction v using Nat.strong_induction_on with
  | _ v ihv =>
    by_cases hvn : v = n
    · subst hvn
      have hfun : (fun t : ℝ => evalCutR s v v t) = fun t : ℝ => t := by
        funext t
        rw [evalCutR]
        simp
      rw [hfun, tangent_self]
      simpa using hasDerivAt_id (((dataOf s v : ℚ) : ℝ))
    · cases hop : opOf s v with
      | leaf =>
        have hfun : (fun t : ℝ => evalCutR s n v t) =
            fun _ : ℝ => ((dataOf s v : ℚ) : ℝ) := by
          funext t
          rw [evalCutR]
          simp [hvn, hop]
        rw [hfun, tangent_leaf fp s n v hvn hop]
        simpa using hasDerivAt_const (((dataOf s n : ℚ) : ℝ))
          (((dataOf s v : ℚ) : ℝ))
      | add a b =>
        have hvlen : v < s.length := op_lt_length s hop (by simp)
        have ha : a < v := hwf v hvlen a (by rw [hop]; simp [slots])
        have hb : b < v := hwf v hvlen b (by rw [hop]; simp [slots])
        have hfun : (fun t : ℝ => evalCutR s n v t) =
            fun t : ℝ => evalCutR s n a t + evalCutR s n b t := by
          funext t
          rw [evalCutR]
          simp [hvn, hop, ha, hb]
        rw [hfun, tangent_add fp s hwf n v a b hvn hop]
        have h := (ihv a ha).add (ihv b hb)
        have hc : ((tangent fp s n a + tangent fp s n b : ℚ) : ℝ) =
            ((tangent fp s n a : ℚ) : ℝ) + ((tangent fp s n b : ℚ) : ℝ) := by
          push_cast
          ring
        rw [hc]
        exact h
      | mul a b =>
        have hvlen : v < s.length := op_lt_length s hop (by simp)
        have ha : a < v := hwf v hvlen a (by rw [hop]; simp [slots])
        have hb : b < v := hwf v hvlen b (by rw [hop]; simp [slots])
        have hfun : (fun t : ℝ => evalCutR s n v t) =
            fun t : ℝ => evalCutR s n a t * evalCutR s n b t := by
          funext t
          rw [evalCutR]
          simp [hvn, hop, ha, hb]
        rw [hfun, tangent_mul fp s hwf n v a b hvn hop]
        have h := (ihv a ha).mul (ihv b hb)
        rw [evalCutR_at_data s hwf hfrag hcons n a,
          evalCutR_at_data s hwf hfrag hcons n b] at h
        have hc : ((tangent fp s n a * dataOf s b +
            dataOf s a * tangent fp s n b : ℚ) : ℝ) =
            ((tangent fp s n a : ℚ) : ℝ) * ((dataOf s b : ℚ) : ℝ) +
              ((dataOf s a : ℚ) : ℝ) * ((tangent fp s n b : ℚ) : ℝ) := by
          push_cast
          ring
        rw [hc]
        exact h
      | pow a e =>
        have hvlen : v < s.length := op_lt_length s hop (by simp)
        have ha : a < v := hwf v hvlen a (by rw [hop]; simp [slots])
        obtain ⟨p, he⟩ := polyFrag_pow s hfrag hop
        subst he
        have hfun : (fun t : ℝ => evalCutR s n v t) =
            fun t : ℝ => (evalCutR s n a t) ^ p := by
          funext t
          rw [evalCutR]
          simp only [hvn, if_false, hop, ha, dif_pos]
          rw [show ((((p : Nat) : ℚ)) : ℝ) = ((p : Nat) : ℝ) by
            push_cast
            ring]
          rw [Real.rpow_natCast]
        rw [hfun, tangent_pow fp s hwf n v a ((p : ℚ)) hvn hop]
        have h := (ihv a ha).pow p
        rw [evalCutR_at_data s hwf hfrag hcons n a] at h
        have hc : (((p : ℚ) * fp (dataOf s a) ((p : ℚ) - 1) *
            tangent fp s n a : ℚ) : ℝ) =
            (p : ℝ) * ((dataOf s a : ℚ) : ℝ) ^ (p - 1) *
              ((tangent fp s n a : ℚ) : ℝ) := by
          rw [pow_coeff_eq fp hfp (dataOf s a) p]
          push_cast
          ring
        rw [hc]
        exact h
      | log a =>
        have hvlen : v < s.length := op_lt_length s hop (by simp)
        have h := hfrag v hvlen
        simp [polyB, hop] at h
      | tanh a t =>
        have hvlen : v < s.length := op_lt_length s hop (by simp)
        have h := hfrag v hvlen
        simp [polyB, hop] at h
      | relu a =>
        have hvlen : v < s.length := op_lt_length s hop (by simp)
        have h := hfrag v hvlen
        simp [polyB, hop] at h

/-- A power routine exact on natural-number exponents, witnessing `fp`
hypotheses at concrete instantiations. -/
theorem qpowI_nat : ∀ (b : ℚ) (p : Nat), qpowI b (p : ℚ) = b ^ p := by
  intro b p
  unfold qpowI
  rw [if_pos (by simp)]
  rw [show ((p : ℚ)).num = (p : ℤ) by simp]
  exact zpow_natCast b p

/-- The rectifier's cut function has no derivative at the kink: the slope
from the right is `1`, the slope from the left is `0`. -/
theorem not_hasDerivAt_relu_kink :
    ¬ ∃ d : ℝ, HasDerivAt (fun t : ℝ => max t 0) d 0 := by
  rintro ⟨d, hd⟩
  have hslope := hasDerivAt_iff_tendsto_slope.mp hd
  have hsub1 : nhdsWithin (0 : ℝ) (Set.Ioi 0) ≤
      nhdsWithin (0 : ℝ) {(0 : ℝ)}ᶜ :=
    nhdsWithin_mono 0 (fun x hx => by
      simp only [Set.mem_compl_iff, Set.mem_singleton_iff]
      exact ne_of_gt hx)
  have hsub2 : nhdsWithin (0 : ℝ) (Set.Iio 0) ≤
      nhdsWithin (0 : ℝ) {(0 : ℝ)}ᶜ :=
    nhdsWithin_mono 0 (fun x hx => by
      simp only [Set.mem_compl_iff, Set.mem_singleton_iff]
      exact ne_of_lt hx)
  have hE1 : Set.EqOn (slope (fun t : ℝ => max t 0) 0) (fun _ => (1 : ℝ))
      (Set.Ioi 0) := by
    intro x hx
    have hx0 : (0 : ℝ) < x := hx
    show slope (fun t : ℝ => max t 0) 0 x = 1
    have h1 : slope (fun t : ℝ => max t 0) 0 x =
        (max x 0 - max 0 0) / (x - 0) := slope_def_field _ _ _
    rw [h1, max_eq_left (le_of_lt hx0), max_self, sub_zero]
    exact div_self (ne_of_gt hx0)
  have hE2 : Set.EqOn (slope (fun t : ℝ => max t 0) 0) (fun _ => (0 : ℝ))
      (Set.Iio 0) := by
    intro x hx
    have hx0 : x < (0 : ℝ) := hx
    show slope (fun t : ℝ => max t 0) 0 x = 0
    have h1 : slope (fun t : ℝ => max t 0) 0 x =
        (max x 0 - max 0 0) / (x - 0) := slope_def_field _ _ _
    rw [h1, max_eq_right (le_of_lt hx0), max_self, sub_zero, sub_zero]
    exact zero_div x
  have ht1 : Filter.Tendsto (fun _ : ℝ => (1 : ℝ))
      (nhdsWithin (0 : ℝ) (Set.Ioi 0)) (nhds d) :=
    Filter.Tendsto.congr'
      (Filter.eventuallyEq_of_mem self_mem_nhdsWithin hE1)
      (hslope.mono_left hsub1)
  have ht2 : Filter.Tendsto (fun _ : ℝ => (0 : ℝ))
      (nhdsWithin (0 : ℝ) (Set.Iio 0)) (nhds d) :=
    Filter.Tendsto.congr'
      (Filter.eventuallyEq_of_mem self_mem_nhdsWithin hE2)
      (hslope.mono_left hsub2)
  have hd1 : (1 : ℝ) = d := tendsto_const_nhds_iff.mp ht1
  have hd0 : (0 : ℝ) = d := tendsto_const_nhds_iff.mp ht2
  exact one_ne_zero (hd1.trans hd0.symm)

theorem evalCutR_reluStore (t : ℝ) :
    evalCutR reluStore 0 1 t = max t 0 := by
  have h0 : evalCutR reluStore 0 0 t = t := by
    rw [evalCutR.eq_def]
    simp
  have hop1 : opOf reluStore 1 = Op.relu 0 := by
    norm_num [opOf, nodeAt, reluStore]
  rw [evalCutR.eq_def]
  norm_num [hop1, h0]

theorem evalCutR_staleReluStore (t : ℝ) :
    evalCutR staleReluStore 0 1 t = max t 0 := by
  have h0 : evalCutR staleReluStore 0 0 t = t := by
    rw [evalCutR.eq_def]
    simp
  have hop1 : opOf staleReluStore 1 = Op.relu 0 := by
    norm_num [opOf, nodeAt, staleReluStore]
  rw [evalCutR.eq_def]
  norm_num [hop1, h0]

/-- C1 (amended): on every acyclic graph of the engine — all node kinds,
any power routine — with clean gradients, `backward()` executes the
closures in a duplicate-free valid reverse topological order (each
consumer strictly before its operands), and every node's final `grad` is
the engine's chain-rule derivative: the forward-mode tangent obtained by
composing the closures' local factors edge by edge.  On the polynomial
fragment (`+`, `*`, `**` with non-negative integer exponents), with
consistent forward data and a power routine exact on integer exponents,
that value is the exact partial derivative: the analytic derivative of the
root's cut function at the node's current data. -/
theorem backward_gradient_amended (fp : ℚ → ℚ → ℚ) (s : Store) (root : Nat)
    (hwf : Wf s) (hroot : root < s.length)
    (hzero : ∀ i < s.length, gradOf s i = 0) :
    (execOrder s root).Nodup ∧
      (∀ m n, m ∈ execOrder s root → n ∈ slots (opOf s m) →
        n ∈ execOrder s root ∧
          ∃ P E, execOrder s root = P ++ m :: E ∧ n ∈ E) ∧
      (∀ n, gradOf (backward fp s root) n = tangent fp s n root) ∧
      (PolyFrag s → Consistent s →
        (∀ (b : ℚ) (p : Nat), fp b (p : ℚ) = b ^ p) →
        ∀ n, Reaches s root n →
          HasDerivAt (fun t => evalCutR s n root t)
            ((gradOf (backward fp s root) n : ℚ) : ℝ)
            ((dataOf s n : ℚ) : ℝ)) := by
  obtain ⟨hnd, hval, hrmem, hcl⟩ := topoSort_facts s root hwf hroot
  have hzero' : ∀ m, 0 ≤ m → m ≠ root → gradOf s m = 0 := by
    intro m _ hm
    by_cases hml : m < s.length
    · exact hzero m hml
    · exact gradOf_oor s m hml
  have hgr : ∀ n, gradOf (backward fp s root) n = tangent fp s n root := by
    intro n
    rw [backward_exec_grads fp s root hwf hroot n]
    exact accGrad_tangent_ge fp s root hwf hroot 0 hzero' n (Nat.zero_le n)
  refine ⟨?_, ?_, hgr, ?_⟩
  · exact List.nodup_reverse.mpr hnd
  · intro m n hm hn
    have hmL : m ∈ topoSort s root := List.mem_reverse.mp hm
    obtain ⟨l1, l2, hdec⟩ := List.append_of_mem hmL
    have hnl1 : n ∈ l1 := by
      rcases hcl l1 m l2 hdec n hn with h' | h'
      · exact h'
      · exact h'.elim
    have hrev : execOrder s root = l2.reverse ++ m :: l1.reverse := by
      unfold execOrder
      rw [hdec]
      simp
    refine ⟨?_, l2.reverse, l1.reverse, hrev, List.mem_reverse.mpr hnl1⟩
    rw [hrev]
    exact List.mem_append.mpr (Or.inr
      (List.mem_cons_of_mem m (List.mem_reverse.mpr hnl1)))
  · intro hfrag hcons hfp n _
    rw [hgr n]
    exact evalCutR_hasDerivAt fp s hwf hfrag hcons hfp n root

/-- Witness for the amended C1 on the concrete graph of `y = x * x + 3` at
`x = 2`, with the integer-exact power routine. -/
theorem backward_gradient_amended_witness :
    (Wf exGraph ∧ 3 < exGraph.length ∧
      (∀ i < exGraph.length, gradOf exGraph i = 0) ∧
      PolyFrag exGraph ∧ Consistent exGraph ∧
      (∀ (b : ℚ) (p : Nat), qpowI b (p : ℚ) = b ^ p)) ∧
    (∀ n, gradOf (backward qpowI exGraph 3) n = tangent qpowI exGraph n 3) ∧
    (∀ n, Reaches exGraph 3 n →
      HasDerivAt (fun t => evalCutR exGraph n 3 t)
        ((gradOf (backward qpowI exGraph 3) n : ℚ) : ℝ)
        ((dataOf exGraph n : ℚ) : ℝ)) := by
  have hwf : Wf exGraph := by decide
  have hroot : 3 < exGraph.length := by decide
  have hzero : ∀ i < exGraph.length, gradOf exGraph i = 0 := by decide
  have hfrag : PolyFrag exGraph := by decide
  have hcons : Consistent exGraph := by
    intro i hi
    simp only [exGraph, List.length_cons, List.length_nil] at hi
    interval_cases i <;> norm_num [consB, opOf, dataOf, nodeAt, exGraph]
  obtain ⟨h1, h2, h3, h4⟩ :=
    backward_gradient_amended qpowI exGraph 3 hwf hroot hzero
  exact ⟨⟨hwf, hroot, hzero, hfrag, hcons, qpowI_nat⟩, h3,
    h4 hfrag hcons qpowI_nat⟩

/-- Counterexample for C1 as stated: the graph `relu(x)` at `x = 0.0`
(`functional.relu`, a supported operation) with all gradients clean
satisfies every hypothesis of the claim; `backward()` terminates with
`x.grad = 0` (whatever the power routine); but the exact partial
derivative of the root with respect to `x` does not exist at the current
data — the root's cut function is `max(t, 0)` evaluated at its kink — so
no value of `x.grad` could equal it. -/
theorem relu_kink_counterexample :
    Wf reluStore ∧ Consistent reluStore ∧ (1 : Nat) < reluStore.length ∧
      (∀ i < reluStore.length, gradOf reluStore i = 0) ∧
      Reaches reluStore 1 0 ∧
      (∀ fp, gradOf (backward fp reluStore 1) 0 = 0) ∧
      ¬ ∃ d : ℝ, HasDerivAt (fun t => evalCutR reluStore 0 1 t) d
          ((dataOf reluStore 0 : ℚ) : ℝ) := by
  refine ⟨by decide, ?_, by decide, by decide, ?_, ?_, ?_⟩
  · intro i hi
    simp only [reluStore, List.length_cons, List.length_nil] at hi
    interval_cases i <;> norm_num [consB, opOf, dataOf, nodeAt, reluStore]
  · exact Reaches.step Reaches.refl (by simp [slots, opOf, nodeAt, reluStore])
  · intro fp
    norm_num [backward, execOrder, topoSort, buildTopoF, prevOf, slots,
      opOf, nodeAt, applyRule, updGrad, gradOf, dataOf, reluStore]
  · have hfun : (fun t => evalCutR reluStore 0 1 t) =
        fun t : ℝ => max t 0 := by
      funext t
      exact evalCutR_reluStore t
    have hdata : ((dataOf reluStore 0 : ℚ) : ℝ) = 0 := by
      norm_num [dataOf, nodeAt, reluStore]
    rw [hfun, hdata]
    exact not_hasDerivAt_relu_kink

/-- C10 (amended): on every graph of the engine — all node kinds, any
power routine — `backward()` overwrites the root's gradient with exactly
`1.0`, discarding any stale value, whereas a non-root node's gradient is
never reset: when the other nodes carry no stale gradients, a non-root
node entering the pass with gradient `g` leaves it with `g` plus the
engine's chain-rule derivative of the root with respect to it (the
forward-mode tangent).  On the polynomial fragment with consistent data
and an integer-exact power routine, that added amount is the exact partial
derivative of the root's cut function at the node's current data. -/
theorem backward_stale_amended (fp : ℚ → ℚ → ℚ) (s : Store) (root n : Nat)
    (hwf : Wf s) (hroot : root < s.length) (hnroot : n ≠ root)
    (hzero : ∀ m < s.length, m ≠ n → m ≠ root → gradOf s m = 0) :
    gradOf (backward fp s root) root = 1 ∧
      gradOf (backward fp s root) n = gradOf s n + tangent fp s n root ∧
      (PolyFrag s → Consistent s →
        (∀ (b : ℚ) (p : Nat), fp b (p : ℚ) = b ^ p) →
        HasDerivAt (fun t => evalCutR s n root t)
          ((tangent fp s n root : ℚ) : ℝ) ((dataOf s n : ℚ) : ℝ)) := by
  obtain ⟨hnd, hval, hrmem, hcl⟩ := topoSort_facts s root hwf hroot
  have hzero' : ∀ m, n + 1 ≤ m → m ≠ root → gradOf s m = 0 := by
    intro m hm hmr
    by_cases hml : m < s.length
    · exact hzero m hml (by omega) hmr
    · exact gradOf_oor s m hml
  have htang : ∀ m, n < m →
      accGrad fp s root (topoSort s root) (gradOf s) m =
        tangent fp s m root :=
    fun m hm =>
      accGrad_tangent_ge fp s root hwf hroot (n + 1) hzero' m (by omega)
  refine ⟨?_, ?_,
    fun hfrag hcons hfp => evalCutR_hasDerivAt fp s hwf hfrag hcons hfp n root⟩
  · rw [backward_exec_grads fp s root hwf hroot root, accGrad]
    rw [Finset.sum_attach _ (fun x => localCoeff fp s x root *
      accGrad fp s root (topoSort s root) (gradOf s) x)]
    rw [if_pos rfl]
    have hS : ∑ x ∈ (Finset.range s.length).filter
        (fun m => m ∈ topoSort s root ∧ root ∈ slots (opOf s m) ∧ root < m),
        localCoeff fp s x root *
          accGrad fp s root (topoSort s root) (gradOf s) x = 0 := by
      apply Finset.sum_eq_zero
      intro x hx
      simp only [Finset.mem_filter, Finset.mem_range] at hx
      exact absurd hx.2.2.2 (not_lt.mpr (hval x hx.2.1).1)
    rw [hS]
    norm_num
  · rw [backward_exec_grads fp s root hwf hroot n, accGrad]
    rw [Finset.sum_attach _ (fun x => localCoeff fp s x n *
      accGrad fp s root (topoSort s root) (gradOf s) x)]
    rw [if_neg hnroot]
    congr 1
    rw [Finset.sum_congr rfl (fun x hx => by
      simp only [Finset.mem_filter, Finset.mem_range] at hx
      rw [htang x hx.2.2.2])]
    rw [tangent_decomp fp s hwf root n, if_neg hnroot, zero_add]
    apply Finset.sum_subset
    · intro x hx
      simp only [Finset.mem_filter, Finset.mem_range] at hx ⊢
      exact ⟨hx.1, hx.2.2.1⟩
    · intro x hx hnx
      simp only [Finset.mem_filter, Finset.mem_range] at hx hnx
      have hxL : x ∉ topoSort s root := by
        intro hc
        exact hnx ⟨hx.1, hc, hx.2, hwf x hx.1 n hx.2⟩
      have hnr : ¬ Reaches s root x :=
        fun hc => hxL (mem_topo_of_reaches s root hwf hroot x hc)
      rw [tangent_unreach fp s root x hnr]
      ring

/-- Witness for the amended C10 on the stale-gradient graph `y = x * x` at
`x = 3` with stale gradients `7` on `x` and `5` on the root, with the
integer-exact power routine. -/
theorem backward_stale_amended_witness :
    (Wf staleStore ∧ 1 < staleStore.length ∧ (0 : Nat) ≠ 1 ∧
      (∀ m < staleStore.length, m ≠ 0 → m ≠ 1 → gradOf staleStore m = 0) ∧
      PolyFrag staleStore ∧ Consistent staleStore) ∧
    gradOf (backward qpowI staleStore 1) 1 = 1 ∧
    gradOf (backward qpowI staleStore 1) 0 =
      gradOf staleStore 0 + tangent qpowI staleStore 0 1 ∧
    HasDerivAt (fun t => evalCutR staleStore 0 1 t)
      ((tangent qpowI staleStore 0 1 : ℚ) : ℝ)
      ((dataOf staleStore 0 : ℚ) : ℝ) := by
  have hwf : Wf staleStore := by decide
  have hroot : 1 < staleStore.length := by decide
  have hfrag : PolyFrag staleStore := by decide
  have hcons : Consistent staleStore := by
    intro i hi
    simp only [staleStore, List.length_cons, List.length_nil] at hi
    interval_cases i <;> norm_num [consB, opOf, dataOf, nodeAt, staleStore]
  have hzero : ∀ m < staleStore.length, m ≠ 0 → m ≠ 1 →
      gradOf staleStore m = 0 := by decide
  obtain ⟨h1, h2, h3⟩ := backward_stale_amended qpowI staleStore 1 0 hwf
    hroot (by decide) hzero
  exact ⟨⟨hwf, hroot, by decide, hzero, hfrag, hcons⟩, h1, h2,
    h3 hfrag hcons qpowI_nat⟩

/-- Counterexample for C10 as stated: the graph `relu(x)` at `x = 0.0`
with stale gradients `7` on `x` and `5` on the root.  The root's stale `5`
is overwritten to `1` (that part of the claim holds), and `x` ends with
`7 + 0` — the engine adds its subgradient convention `0` — but "`g` plus
its true partial derivative" is unsatisfiable: the root's cut function is
`max(t, 0)` at its kink and has no derivative there. -/
theorem stale_relu_counterexample :
    Wf staleReluStore ∧ Consistent staleReluStore ∧
      gradOf staleReluStore 0 = 7 ∧
      (∀ fp, gradOf (backward fp staleReluStore 1) 1 = 1 ∧
        gradOf (backward fp staleReluStore 1) 0 = 7) ∧
      ¬ ∃ d : ℝ, HasDerivAt (fun t => evalCutR staleReluStore 0 1 t) d
          ((dataOf staleReluStore 0 : ℚ) : ℝ) := by
  refine ⟨by decide, ?_, by decide, ?_, ?_⟩
  · intro i hi
    simp only [staleReluStore, List.length_cons, List.length_nil] at hi
    interval_cases i <;>
      norm_num [consB, opOf, dataOf, nodeAt, staleReluStore]
  · intro fp
    constructor
    · norm_num [backward, execOrder, topoSort, buildTopoF, prevOf, slots,
        opOf, nodeAt, applyRule, updGrad, gradOf, dataOf, staleReluStore]
    · norm_num [backward, execOrder, topoSort, buildTopoF, prevOf, slots,
        opOf, nodeAt, applyRule, updGrad, gradOf, dataOf, staleReluStore]
  · have hfun : (fun t => evalCutR staleReluStore 0 1 t) =
        fun t : ℝ => max t 0 := by
      funext t
      exact evalCutR_staleReluStore t
    have hdata : ((dataOf staleReluStore 0 : ℚ) : ℝ) = 0 := by
      norm_num [dataOf, nodeAt, staleReluStore]
    rw [hfun, hdata]
    exact not_hasDerivAt_relu_kink

end AutogradSpec
